import Mathlib

/-!
Verification development for the registry mirror (src/registry.ts).

Conventions of the shallow embedding:
* JS strings that flow through the codec are modelled as `List Char` (one
  `Char` per UTF-16 code unit; payload strings stored in values are Lean
  `String`s, which model surrogate-free JS strings, i.e. strings of BMP
  code units — the only ones the codec manipulates unit-by-unit).
* JS numbers holding registry integers are modelled as `Nat` (the typed
  setters `setUint32`/`setBigUint64` wrap, which the byte extractors below
  reproduce with `/` and `% 256`).
* A thrown JS exception is an `Except.error`; `undefined` results are
  `Option.none`.
-/

namespace Registry

/-! ### Byte and hex helpers (src/registry.ts lines 27-44) -/

/-- Digit character of `n.toString(16)` for a single hex digit. -/
def hexDigitChar (n : Nat) : Char :=
  if n < 10 then Char.ofNat (48 + n) else Char.ofNat (87 + n)

/-- Structural worker for `Number.prototype.toString(16)` on naturals. -/
def hexRepAux : Nat → Nat → List Char
  | 0, _ => []
  | fuel + 1, n =>
    if n < 16 then [hexDigitChar n]
    else hexRepAux fuel (n / 16) ++ [hexDigitChar (n % 16)]

/-- `n.toString(16)` for a natural number `n` (lowercase, no padding). -/
def hexRep (n : Nat) : List Char := hexRepAux (n + 1) n

/-- `s.padStart(2, '0')` from `bytes_to_hex`. -/
def padStart2 (cs : List Char) : List Char :=
  if cs.length ≥ 2 then cs
  else if cs.length = 1 then '0' :: cs
  else ['0', '0']

/-- One byte rendered as two hex characters: `i.toString(16).padStart(2, '0')`. -/
def byte2hex (b : Nat) : List Char := padStart2 (hexRep b)

/-- `Array.prototype.join(',')` on a list of rendered chunks. -/
def joinComma : List (List Char) → List Char
  | [] => []
  | [c] => c
  | c :: cs => c ++ ',' :: joinComma cs

/-- `bytes_to_hex(value)` (src/registry.ts line 30-32). -/
def bytes_to_hex (bytes : List Nat) : List Char :=
  joinComma (bytes.map byte2hex)

/-- The UTF-16 code units of a (surrogate-free) JS string: `charCodeAt` values. -/
def utf16Units (s : String) : List Nat := s.data.map (fun c => c.toNat)

/-- Little-endian byte serialization of 16-bit code units (`setUint16(…, true)`). -/
def utf16leBytes (us : List Nat) : List Nat :=
  us.flatMap (fun u => [u % 256, u / 256 % 256])

/-- `string_to_bytes` output for one string: its UTF-16LE code units followed
by a 16-bit NUL terminator (src/registry.ts lines 33-39, and `SZ.raw`). -/
def sz_raw (s : String) : List Nat := utf16leBytes (utf16Units s) ++ [0, 0]

/-- Raw encoding of a `MULTI_SZ`: each element NUL-terminated, then one extra
16-bit NUL (src/registry.ts lines 100-115 and 183-192). -/
def multi_raw (d : List String) : List Nat := d.flatMap sz_raw ++ [0, 0]

/-- `setUint32(0, v, true)`: the four little-endian bytes of `v` (wrapping). -/
def u32le (v : Nat) : List Nat :=
  [v % 256, v / 256 % 256, v / 65536 % 256, v / 16777216 % 256]

/-- `setUint32(0, v, false)`: the four big-endian bytes of `v` (wrapping). -/
def u32be (v : Nat) : List Nat :=
  [v / 16777216 % 256, v / 65536 % 256, v / 256 % 256, v % 256]

/-- `setBigUint64(0, v, true)`: the eight little-endian bytes of `v` (wrapping). -/
def u64le (v : Nat) : List Nat :=
  [v % 256, v / 256 % 256, v / 65536 % 256, v / 16777216 % 256,
   v / 4294967296 % 256, v / 1099511627776 % 256,
   v / 281474976710656 % 256, v / 72057594037927936 % 256]

/-! ### The value model (src/registry.ts lines 46-139) -/

/-- The twelve `Data` variants.  Each constructor carries the decoded payload
of the corresponding class (`NONE`-family classes carry raw bytes, the string
classes carry text, the integer classes carry the number). -/
inductive Data where
  | NONE (value : List Nat)
  | BINARY (value : List Nat)
  | LINK (value : List Nat)
  | RESOURCE_LIST (value : List Nat)
  | FULL_RESOURCE_DESCRIPTOR (value : List Nat)
  | RESOURCE_REQUIREMENTS_LIST (value : List Nat)
  | SZ (value : String)
  | EXPAND_SZ (value : String)
  | DWORD (value : Nat)
  | DWORD_BIG_ENDIAN (value : Nat)
  | MULTI_SZ (value : List String)
  | QWORD (value : Nat)
deriving DecidableEq, Repr

/-- The `raw` getter of each class: the exact binary encoding of the value. -/
def Data.raw : Data → List Nat
  | .NONE b => b
  | .BINARY b => b
  | .LINK b => b
  | .RESOURCE_LIST b => b
  | .FULL_RESOURCE_DESCRIPTOR b => b
  | .RESOURCE_REQUIREMENTS_LIST b => b
  | .SZ s => sz_raw s
  | .EXPAND_SZ s => sz_raw s
  | .DWORD v => u32le v
  | .DWORD_BIG_ENDIAN v => u32be v
  | .MULTI_SZ d => multi_raw d
  | .QWORD v => u64le v

/-! ### Encoding: `data_to_regstring` (src/registry.ts lines 145-198) -/

/-- `data_to_regstring(value, strict)`, switch on `value.constructor.name`.
Note the code renders `NONE`, `LINK`, the resource variants and `BINARY`
identically in both modes, has no strict branch for `SZ` and `DWORD`
(they fall through to the friendly forms), and the strict
`DWORD_BIG_ENDIAN` branch writes the value little-endian (`setUint32(…,
true)`) after `hex(5): ` with a space. -/
def data_to_regstring (value : Data) (strict : Bool) : List Char :=
  match value with
  | .NONE b => "hex(0):".data ++ bytes_to_hex b
  | .LINK b => "hex(6):".data ++ bytes_to_hex b
  | .RESOURCE_LIST b => "hex(8):".data ++ bytes_to_hex b
  | .FULL_RESOURCE_DESCRIPTOR b => "hex(9):".data ++ bytes_to_hex b
  | .RESOURCE_REQUIREMENTS_LIST b => "hex(a):".data ++ bytes_to_hex b
  | .BINARY b => "hex:".data ++ bytes_to_hex b
  | .EXPAND_SZ d =>
    if strict then "hex(2):".data ++ bytes_to_hex (sz_raw d)
    else '"' :: d.data ++ ['"']
  | .SZ d => '"' :: d.data ++ ['"']
  | .DWORD_BIG_ENDIAN v =>
    if strict then "hex(5): ".data ++ bytes_to_hex (u32le v)
    else "dword:".data ++ hexRep v
  | .DWORD v => "dword:".data ++ hexRep v
  | .QWORD v =>
    if strict then "hex(11):".data ++ bytes_to_hex (u64le v)
    else "qword:".data ++ hexRep v
  | .MULTI_SZ d =>
    if strict then "hex(7):".data ++ bytes_to_hex (multi_raw d)
    else '[' :: joinComma (d.map (fun i => '"' :: i.data ++ ['"'])) ++ [']']

/-! ### Decoding: the regex of `regstring_to_data` (src/registry.ts lines 200-231)

The source applies
`/"(.*)"|(dword):([0-9a-fA-F]{8})|hex(\([0-0a-fA-F]+\))?:((?:[0-9a-fA-F]{2},)*[0-9a-fA-F]{2})/.exec(value)`
— an unanchored search trying the three alternatives, in order, at each
position from the left.  We embed the search faithfully, including the
literal character class `[0-0a-fA-F]` of the tag group (the range `0-0`
admits only the digit `0`) and the fact that group 4 captures the
parentheses. -/

/-- JS regex `[0-9a-fA-F]`. -/
def isHexDigit (c : Char) : Bool :=
  ('0' ≤ c && c ≤ '9') || ('a' ≤ c && c ≤ 'f') || ('A' ≤ c && c ≤ 'F')

/-- The tag character class as written in the source: `[0-0a-fA-F]`. -/
def isTagChar (c : Char) : Bool :=
  c = '0' || ('a' ≤ c && c ≤ 'f') || ('A' ≤ c && c ≤ 'F')

/-- JS regex `.` refuses the four line terminators. -/
def isLineTerm (c : Char) : Bool :=
  c = '\n' || c = '\r' || c = Char.ofNat 0x2028 || c = Char.ofNat 0x2029

/-- Index (in `cs`) of the last `'"'` reachable by `.*` — i.e. the last
quote that is preceded only by non-line-terminator characters.  This is
the closing quote the greedy `"(.*)"` backtracks to. -/
def lastQuoteIdx (cs : List Char) : Option Nat :=
  go cs 0 none
where
  go : List Char → Nat → Option Nat → Option Nat
    | [], _, best => best
    | c :: rest, i, best =>
      if isLineTerm c then best
      else go rest (i + 1) (if c = '"' then some i else best)

/-- Alternative 1, `"(.*)"`, anchored at the current position; returns group 1. -/
def matchQuoted : List Char → Option (List Char)
  | '"' :: rest => (lastQuoteIdx rest).map (fun j => rest.take j)
  | _ => none

/-- Alternative 2, `(dword):([0-9a-fA-F]{8})`, anchored; returns group 3. -/
def matchDword : List Char → Option (List Char)
  | 'd' :: 'w' :: 'o' :: 'r' :: 'd' :: ':' :: rest =>
    let ds := rest.take 8
    if ds.length = 8 && ds.all isHexDigit then some ds else none
  | _ => none

/-- The payload `(?:[0-9a-fA-F]{2},)*[0-9a-fA-F]{2}`, anchored, greedy with
backtracking: if the tail after a `hh,` repetition fails, the repetition's
two hex digits serve as the final pair. -/
def payloadMatch : List Char → Option (List Char)
  | c1 :: c2 :: ',' :: rest =>
    if isHexDigit c1 && isHexDigit c2 then
      match payloadMatch rest with
      | some tail => some (c1 :: c2 :: ',' :: tail)
      | none => some [c1, c2]
    else none
  | c1 :: c2 :: _ =>
    if isHexDigit c1 && isHexDigit c2 then some [c1, c2] else none
  | _ => none

/-- Alternative 3, `hex(\([0-0a-fA-F]+\))?:(payload)`, anchored; returns
(group 4 including its parentheses, group 5).  If the optional tag group
cannot complete, the regex retries it empty, which then requires `:`
immediately after `hex`. -/
def matchHexAlt : List Char → Option (Option (List Char) × List Char)
  | 'h' :: 'e' :: 'x' :: rest =>
    match rest with
    | ':' :: r2 => (payloadMatch r2).map (fun p => (none, p))
    | '(' :: r2 =>
      let run := r2.takeWhile isTagChar
      match r2.drop run.length with
      | ')' :: ':' :: r4 =>
        if run.isEmpty then none
        else (payloadMatch r4).map (fun p => (some ('(' :: run ++ [')']), p))
      | _ => none
    | _ => none
  | _ => none

/-- The capture groups of a successful `exec` (unset groups are `undefined`). -/
structure ExecMatch where
  g1 : Option (List Char)
  g2 : Option (List Char)
  g3 : Option (List Char)
  g4 : Option (List Char)
  g5 : Option (List Char)
deriving DecidableEq, Repr

/-- Try the whole alternation at one position (alternatives in source order). -/
def execAt (cs : List Char) : Option ExecMatch :=
  match matchQuoted cs with
  | some s => some ⟨some s, none, none, none, none⟩
  | none =>
    match matchDword cs with
    | some d => some ⟨none, some "dword".data, some d, none, none⟩
    | none =>
      match matchHexAlt cs with
      | some (tag, pay) => some ⟨none, none, none, tag, some pay⟩
      | none => none

/-- `re.exec(value)`: leftmost position at which the pattern matches. -/
def regexec : List Char → Option ExecMatch
  | [] => none
  | c :: rest =>
    match execAt (c :: rest) with
    | some m => some m
    | none => regexec rest

/-! ### Decoding: `regstring_to_data` itself -/

/-- Exceptions the decoder can raise. -/
inductive JsErr where
  | typeError
  | rangeError
deriving DecidableEq, Repr

/-- JS whitespace accepted by `parseInt` before the digits. -/
def isJsWs (c : Char) : Bool :=
  c = ' ' || c = '\t' || c = '\n' || c = '\r' || c = Char.ofNat 11 || c = Char.ofNat 12

/-- Hexadecimal digit value. -/
def hexDigitVal (c : Char) : Nat :=
  if '0' ≤ c && c ≤ '9' then c.toNat - 48
  else if 'a' ≤ c && c ≤ 'f' then c.toNat - 87
  else if 'A' ≤ c && c ≤ 'F' then c.toNat - 55
  else 0

/-- `parseInt(s, 16)` on the strings this module feeds it: skip leading
whitespace, read a maximal run of hex digits, `NaN` (`none`) if the run is
empty.  (The inputs never carry signs or `0x` prefixes.) -/
def jsParseIntHex (cs : List Char) : Option Nat :=
  let t := cs.dropWhile isJsWs
  let ds := t.takeWhile isHexDigit
  if ds.isEmpty then none
  else some (ds.foldl (fun a c => a * 16 + hexDigitVal c) 0)

/-- `value ? … : …` truthiness of a captured group: set and non-empty. -/
def jsTruthy : Option (List Char) → Bool
  | none => false
  | some s => !s.isEmpty

/-- `String.prototype.split(sep)` for a one-character separator. -/
def splitChar (sep : Char) : List Char → List (List Char)
  | [] => [[]]
  | c :: rest =>
    if c = sep then [] :: splitChar sep rest
    else
      match splitChar sep rest with
      | [] => [[c]]
      | h :: t => (c :: h) :: t

/-- UTF-16LE code units of a byte buffer; a trailing lone byte decodes to
the replacement character (TextDecoder behaviour). -/
def codeUnitsLE : List Nat → List Nat
  | b0 :: b1 :: rest => (b0 + b1 * 256) :: codeUnitsLE rest
  | [_] => [0xFFFD]
  | [] => []

/-- A code unit as a character; lone surrogates become the replacement
character (TextDecoder behaviour on malformed UTF-16). -/
def unitChar (u : Nat) : Char :=
  if u < 0xD800 || (0xE000 ≤ u && u < 0x110000) then Char.ofNat u
  else Char.ofNat 0xFFFD

/-- `bytes_to_string(buffer)` (src/registry.ts lines 41-44): decode as
UTF-16LE and strip one trailing NUL if present. -/
def bytes_to_string (bytes : List Nat) : String :=
  let cs := (codeUnitsLE bytes).map unitChar
  match cs.getLast? with
  | some c => if c = Char.ofNat 0 then String.mk (cs.dropLast) else String.mk cs
  | none => String.mk cs

/-- `dv.getUint32(0, true)`; throws `RangeError` past the buffer. -/
def getUint32LE (b : List Nat) : Except JsErr Nat :=
  if b.length ≥ 4 then
    .ok (b.getD 0 0 + b.getD 1 0 * 256 + b.getD 2 0 * 65536 + b.getD 3 0 * 16777216)
  else .error .rangeError

/-- `dv.getUint32(0, false)`; throws `RangeError` past the buffer. -/
def getUint32BE (b : List Nat) : Except JsErr Nat :=
  if b.length ≥ 4 then
    .ok (b.getD 3 0 + b.getD 2 0 * 256 + b.getD 1 0 * 65536 + b.getD 0 0 * 16777216)
  else .error .rangeError

/-- `dv.getBigUint64(0, true)`; throws `RangeError` past the buffer. -/
def getUint64LE (b : List Nat) : Except JsErr Nat :=
  if b.length ≥ 8 then
    .ok (b.getD 0 0 + b.getD 1 0 * 256 + b.getD 2 0 * 65536 + b.getD 3 0 * 16777216 +
         b.getD 4 0 * 4294967296 + b.getD 5 0 * 1099511627776 +
         b.getD 6 0 * 281474976710656 + b.getD 7 0 * 72057594037927936)
  else .error .rangeError

/-- The switch on `parseInt(m[4], 16)` (src/registry.ts lines 215-229).
Because group 4 captures its parentheses, `parseInt` yields `NaN`
(`none` upstream) on every real input, so only the `default` arm is
reachable; the arms are nevertheless embedded as written. -/
def tagSwitch (t : Nat) (data : List Nat) : Except JsErr (Option Data) :=
  match t with
  | 0 => .ok (some (.NONE data))
  | 1 => .ok (some (.SZ (bytes_to_string data)))
  | 2 => .ok (some (.EXPAND_SZ (bytes_to_string data)))
  | 3 => .ok (some (.BINARY data))
  | 4 => (getUint32LE data).map (fun v => some (.DWORD v))
  | 5 => (getUint32BE data).map (fun v => some (.DWORD_BIG_ENDIAN v))
  | 6 => .ok (some (.LINK data))
  | 7 => .ok (some (.MULTI_SZ ((splitChar (Char.ofNat 0) (bytes_to_string data).data).map String.mk)))
  | 8 => .ok (some (.RESOURCE_LIST data))
  | 9 => .ok (some (.FULL_RESOURCE_DESCRIPTOR data))
  | 10 => .ok (some (.RESOURCE_REQUIREMENTS_LIST data))
  | 11 => (getUint64LE data).map (fun v => some (.QWORD v))
  | _ => .ok (some (.NONE data))

/-- `regstring_to_data(value)` (src/registry.ts lines 200-231).  `Except`
models the `TypeError` raised when group 1 matched but captured the empty
string (falsy), group 2 is unset, and the code dereferences the unset
`m[5]`; `Option` models the `undefined` returned when the regex does not
match at all. -/
def regstring_to_data (value : List Char) : Except JsErr (Option Data) :=
  match regexec value with
  | none => .ok none
  | some m =>
    if jsTruthy m.g1 then .ok (some (.SZ (String.mk (m.g1.getD []))))
    else if jsTruthy m.g2 then
      .ok (some (.DWORD ((jsParseIntHex (m.g3.getD [])).getD 0)))
    else
      match m.g5 with
      | none => .error .typeError
      | some p =>
        let data := (splitChar ',' p).map (fun v => (jsParseIntHex v).getD 0 % 256)
        match m.g4 with
        | none => .ok (some (.BINARY data))
        | some tag =>
          match jsParseIntHex tag with
          | none => .ok (some (.NONE data))
          | some t => tagSwitch t data

/-! ### The key tree cache (src/registry.ts lines 284-433)

State model.  `KeyImp` objects live in an arena indexed by `NodeId`; object
identity in the source (`===`, `Set<KeyImp>`) is id equality here.  JS
objects used as string maps (`_keys`, the value records) are
insertion-ordered association lists with unique names: property update
rewrites in place, insertion appends, `delete` removes.  A promise is
modelled by its identity (`id`) and its eventual settlement (`result`); `a
.then` chained on it acts on that settlement.  The external executor is out
of scope (spec section 1), so each operation takes its command's outcome as
an argument; `queryCount` counts issued QUERY commands. -/

abbrev NodeId := Nat

/-- The `RegError` carried by a rejected executor promise. -/
structure RegError where
  message : String
  code : Int
deriving DecidableEq, Repr

abbrev ValMap := List (String × Data)

instance {ε α : Type} [DecidableEq ε] [DecidableEq α] : DecidableEq (Except ε α) :=
  fun a b =>
    match a, b with
    | .ok x, .ok y =>
      if h : x = y then isTrue (by rw [h]) else isFalse (fun hc => h (Except.ok.inj hc))
    | .error x, .error y =>
      if h : x = y then isTrue (by rw [h]) else isFalse (fun hc => h (Except.error.inj hc))
    | .ok _, .error _ => isFalse (fun hc => Except.noConfusion hc)
    | .error _, .ok _ => isFalse (fun hc => Except.noConfusion hc)

/-- A memoized `_items` promise: identity plus eventual settlement. -/
structure Prom where
  id : Nat
  result : Except RegError ValMap
deriving DecidableEq, Repr

/-- One `KeyImp` (src/registry.ts lines 284-287, 362): `found?: boolean`
is `false` here when undefined. -/
structure KeyImp where
  name : String
  parent : Option NodeId
  keys : List (String × NodeId)
  items : Option Prom
  found : Bool
deriving DecidableEq, Repr

/-- The process-wide state: the node arena and the two root partitions
`hosts32` / `hosts64` (src/registry.ts lines 10-11). -/
structure Store where
  nodes : List (NodeId × KeyImp)
  nextId : NodeId
  hosts32 : List (String × NodeId)
  hosts64 : List (String × NodeId)
  nextProm : Nat
  queryCount : Nat
deriving DecidableEq, Repr

/-- Association-list lookup (JS property read). -/
def alookup {κ α : Type} [DecidableEq κ] : List (κ × α) → κ → Option α
  | [], _ => none
  | (k, v) :: rest, s => if k = s then some v else alookup rest s

def lookupNode (st : Store) (n : NodeId) : Option KeyImp := alookup st.nodes n

/-- Rewrite the entry keyed `n` in place (JS property update on the arena). -/
def updEntries {α : Type} (n : Nat) (f : α → α) : List (Nat × α) → List (Nat × α)
  | [] => []
  | (k, v) :: rest =>
    if k = n then (k, f v) :: updEntries n f rest
    else (k, v) :: updEntries n f rest

def updateNode (st : Store) (n : NodeId) (f : KeyImp → KeyImp) : Store :=
  {st with nodes := updEntries n f st.nodes}

/-- JS `m[k] = v`: overwrite in place if present, else append. -/
def setEntry {α : Type} (m : List (String × α)) (k : String) (v : α) :
    List (String × α) :=
  if (alookup m k).isSome then m.map (fun e => if e.1 = k then (k, v) else e)
  else m ++ [(k, v)]

/-- JS `delete m[k]`. -/
def removeEntry {α : Type} (m : List (String × α)) (k : String) :
    List (String × α) :=
  m.filter (fun e => decide (e.1 ≠ k))

def foundOf (st : Store) (n : NodeId) : Option Bool :=
  (lookupNode st n).map (fun k => k.found)

def itemsOf (st : Store) (n : NodeId) : Option Prom :=
  (lookupNode st n).bind (fun k => k.items)

def keysOfD (st : Store) (n : NodeId) : List (String × NodeId) :=
  ((lookupNode st n).map (fun k => k.keys)).getD []

def okBool {α : Type} : Except RegError α → Bool
  | .ok _ => true
  | .error _ => false

/-- `add_found_key(key)` (src/registry.ts lines 322-328): skip the empty
name and this node's own name, create the child if absent, mark it found. -/
def add_found_key (st : Store) (n : NodeId) (key : String) : Store :=
  match lookupNode st n with
  | none => st
  | some k =>
    if key ≠ "" ∧ key ≠ k.name then
      match alookup k.keys key with
      | some c => updateNode st c (fun ck => {ck with found := true})
      | none =>
        let cid := st.nextId
        let st1 : Store := {st with
          nodes := st.nodes ++ [(cid, ⟨key, some n, [], none, true⟩)],
          nextId := cid + 1}
        updateNode st1 n (fun pk => {pk with keys := pk.keys ++ [(key, cid)]})
    else st

/-- The ancestor-marking loop of `reread` (src/registry.ts lines 352-353):
`for (let p = this; !p.found && p.parent; p = p.parent) p.found = true;` —
it stops at an already-found node, and stops at a parentless root without
marking it.  `fuel` bounds the walk (the arena size suffices on any
parent-acyclic store). -/
def markFoundAux : Nat → Store → NodeId → Store
  | 0, st, _ => st
  | fuel + 1, st, n =>
    match lookupNode st n with
    | none => st
    | some k =>
      if k.found then st
      else
        match k.parent with
        | none => st
        | some p =>
          markFoundAux fuel (updateNode st n (fun x => {x with found := true})) p

def markFound (st : Store) (n : NodeId) : Store :=
  markFoundAux (st.nodes.length + 1) st n

/-- A successful QUERY outcome, abstracted to its parsed content: the value
lines already decoded by the codec (`ITEM_PATTERN` lines) and the
discovered sub-key names (`PATH_PATTERN` lines); the line grammar itself
belongs to the external wire format. -/
structure QueryOut where
  items : ValMap
  subkeys : List String
deriving DecidableEq, Repr

/-- Issuing a `runCommand('QUERY')`: consume one promise identity and count
one external QUERY. -/
def bumpQuery (st : Store) : Store :=
  {st with nextProm := st.nextProm + 1, queryCount := st.queryCount + 1}

/-- `reread()` (src/registry.ts lines 330-356): issue one QUERY, assign the
fresh `_items` promise, and — on fulfillment — record discovered children
and run the ancestor-marking loop.  Returns the assigned promise. -/
def reread (st : Store) (n : NodeId) (outcome : Except RegError QueryOut) :
    Store × Prom :=
  let pid := st.nextProm
  let st0 : Store := bumpQuery st
  match outcome with
  | .error e =>
    let prom : Prom := ⟨pid, .error e⟩
    (updateNode st0 n (fun k => {k with items := some prom}), prom)
  | .ok q =>
    let st1 := q.subkeys.foldl (fun s key => add_found_key s n key) st0
    let st2 := markFound st1 n
    let prom : Prom := ⟨pid, .ok q.items⟩
    (updateNode st2 n (fun k => {k with items := some prom}), prom)

/-- `read()` (src/registry.ts lines 358-360): `this._items ?? this.reread()`. -/
def read (st : Store) (n : NodeId) (outcome : Except RegError QueryOut) :
    Store × Prom :=
  match itemsOf st n with
  | some p => (st, p)
  | none => reread st n outcome

/-- `p._keys[i] = new KeyImp(i, p)` — create a fresh child named `s` under
`n` and append it to `n`'s child map (src/registry.ts lines 371-372). -/
def addChild (st : Store) (n : NodeId) (s : String) : Store × NodeId :=
  let cid := st.nextId
  let st1 : Store := {st with
    nodes := st.nodes ++ [(cid, ⟨s, some n, [], none, false⟩)],
    nextId := cid + 1}
  (updateNode st1 n (fun pk => {pk with keys := pk.keys ++ [(s, cid)]}), cid)

/-- `subkey(key)` after splitting on backslashes (src/registry.ts 368-376). -/
def subkey (st : Store) (n : NodeId) : List String → Store × NodeId
  | [] => (st, n)
  | s :: rest =>
    match lookupNode st n with
    | none => (st, n)
    | some k =>
      match alookup k.keys s with
      | some c => subkey st c rest
      | none => subkey (addChild st n s).1 (addChild st n s).2 rest

/-- `clear()` (src/registry.ts lines 382-390): if a memoized value set
exists, purge it when (and only when) that promise fulfills; the returned
promise always settles to the external command's boolean outcome. -/
def clear (st : Store) (n : NodeId) (oc : Except RegError Unit) :
    Store × Except RegError Bool :=
  let st1 :=
    match itemsOf st n with
    | some prom =>
      match prom.result with
      | .ok _ => updateNode st n (fun k => {k with items := some ⟨prom.id, .ok []⟩})
      | .error _ => st
    | none => st
  (st1, .ok (okBool oc))

/-- `destroy()` (src/registry.ts lines 392-397): on success, delete this
node's name from its parent's child map (optional chaining on the parent)
and resolve `true`; on failure resolve `false`. -/
def destroy (st : Store) (n : NodeId) (oc : Except RegError Unit) :
    Store × Except RegError Bool :=
  match oc with
  | .error _ => (st, .ok false)
  | .ok _ =>
    match lookupNode st n with
    | none => (st, .ok true)
    | some k =>
      match k.parent with
      | none => (st, .ok true)
      | some p =>
        (updateNode st p (fun pk => {pk with keys := removeEntry pk.keys k.name}),
         .ok true)

/-- `deleteValue(key)` (src/registry.ts lines 403-410): on external success
the handler returns `this._items.then(x => {delete x[key]; return true})` —
which follows the memoized promise's settlement: it mutates the resolved
record and yields `true`, or re-raises the memoized rejection. -/
def deleteValue (st : Store) (n : NodeId) (key : String)
    (oc : Except RegError Unit) : Store × Except RegError Bool :=
  match oc with
  | .error _ => (st, .ok false)
  | .ok _ =>
    match itemsOf st n with
    | none => (st, .ok true)
    | some prom =>
      match prom.result with
      | .error e => (st, .error e)
      | .ok m =>
        (updateNode st n
          (fun k => {k with items := some ⟨prom.id, .ok (removeEntry m key)⟩}),
         .ok true)

/-- `setValue(key, value)` (src/registry.ts lines 412-419): like
`deleteValue` but writing `x[key] = value` into the resolved record. -/
def setValue (st : Store) (n : NodeId) (key : String) (v : Data)
    (oc : Except RegError Unit) : Store × Except RegError Bool :=
  match oc with
  | .error _ => (st, .ok false)
  | .ok _ =>
    match itemsOf st n with
    | none => (st, .ok true)
    | some prom =>
      match prom.result with
      | .error e => (st, .error e)
      | .ok m =>
        (updateNode st n
          (fun k => {k with items := some ⟨prom.id, .ok (setEntry m key v)⟩}),
         .ok true)

/-- Walk to the topmost ancestor (`getRootAndPath`, src/registry.ts
lines 289-302); `fuel` bounds the walk. -/
def rootGo : Nat → Store → NodeId → NodeId
  | 0, _, n => n
  | fuel + 1, st, n =>
    match lookupNode st n with
    | none => n
    | some k =>
      match k.parent with
      | none => n
      | some p => rootGo fuel st p

def rootOf (st : Store) (n : NodeId) : NodeId := rootGo (n + 1) st n

/-- `getView()` (src/registry.ts lines 304-308): `'32'` exactly when the
32-bit partition maps the root's name to this very root object. -/
def getView (st : Store) (n : NodeId) : String :=
  let r := rootOf st n
  match lookupNode st r with
  | some k => if alookup st.hosts32 k.name = some r then "32" else "64"
  | none => "64"

/-- The targeted-invalidation loop of `importreg` (src/registry.ts
lines 558-563): for each dirty node, record its parent in the
insertion-ordered set and delete the node's name from that parent's child
map.  (A dirty root would make the source dereference `undefined`; dirty
nodes are `KeyBase`s, which always carry a parent.) -/
def detachLoop : Store → List NodeId → List NodeId → Store × List NodeId
  | st, ps, [] => (st, ps)
  | st, ps, i :: rest =>
    match lookupNode st i with
    | none => detachLoop st ps rest
    | some k =>
      match k.parent with
      | none => detachLoop st ps rest
      | some p =>
        let ps1 := if p ∈ ps then ps else ps ++ [p]
        let st1 := updateNode st p (fun pk => {pk with keys := removeEntry pk.keys k.name})
        detachLoop st1 ps1 rest

/-- `importreg(file, view, dirty)` (src/registry.ts lines 550-575).  On
success with a dirty list: detach each dirty node and return the
de-duplicated parents scheduled for `reread()` — those re-reads are issued
and not awaited, so their effects are represented by the returned list, in
issue order.  With no dirty list the `view === '32' ? hosts32 : hosts64`
partition is emptied wholesale.  On failure nothing is touched. -/
def importreg (st : Store) (view : Option String) (dirty : Option (List NodeId))
    (oc : Except RegError Unit) : Store × List NodeId × Bool :=
  match oc with
  | .error _ => (st, [], false)
  | .ok _ =>
    match dirty with
    | some ds =>
      let r := detachLoop st [] ds
      (r.1, r.2, true)
    | none =>
      if view = some "32" then ({st with hosts32 := []}, [], true)
      else ({st with hosts64 := []}, [], true)

/-- The ancestor chain of a node: the node, its parent, …, ending at the
first parentless (root) node; `none` if the walk does not close within
`fuel` steps or hits a dangling id. -/
def chainOf (st : Store) : Nat → NodeId → Option (List NodeId)
  | 0, _ => none
  | fuel + 1, n =>
    match lookupNode st n with
    | none => none
    | some k =>
      match k.parent with
      | none => some [n]
      | some p => (chainOf st fuel p).map (fun ch => n :: ch)

def parentIdOf (st : Store) (i : NodeId) : Option NodeId :=
  (lookupNode st i).bind (fun k => k.parent)

/-- The names under which dirty nodes attached below `p` are deleted from
`p`'s child map by the targeted invalidation of `importreg`. -/
def dirtyNamesFor (st : Store) (ds : List NodeId) (p : NodeId) : List String :=
  ds.filterMap (fun i =>
    match lookupNode st i with
    | some k => if k.parent = some p then some k.name else none
    | none => none)

/-- A key record with the child entries named in `names` removed — the
cumulative effect of the targeted invalidation on one parent. -/
def filterKeys (k : KeyImp) (names : List String) : KeyImp :=
  {k with keys := k.keys.filter (fun en => decide (en.1 ∉ names))}

/-! ### Namespace resolver (src/registry.ts lines 4-8, 509-548) -/

def HIVES_SHORT : List String := ["HKLM", "HKU", "HKCU", "HKCR", "HKCC"]

def HIVES_LONG : List String :=
  ["HKEY_LOCAL_MACHINE", "HKEY_USERS", "HKEY_CURRENT_USER", "HKEY_CLASSES_ROOT",
   "HKEY_CURRENT_CONFIG"]

/-- The `\\host\` prefix stripping of `getRawKey` (src/registry.ts
lines 510-515).  When no backslash follows the two leading ones,
`indexOf` returns `-1` and JS `substring(2, -1)` clamps and swaps its
arguments into `substring(0, 2)`: the "host" becomes the two leading
backslashes and the key is left whole. -/
def stripHost (key : List Char) : List Char × List Char :=
  match key with
  | '\\' :: '\\' :: rest =>
    match rest.findIdx? (fun c => c = '\\') with
    | some j => (rest.take j, rest.drop (j + 1))
    | none => (['\\', '\\'], key)
  | _ => ([], key)

/-- The JS character class `[a-zA-Z0-9_\s]` of `KEY_PATTERN` (the BMP
whitespace subset of `\s` suffices for the code points in play). -/
def isKeyChar (c : Char) : Bool :=
  ('a' ≤ c && c ≤ 'z') || ('A' ≤ c && c ≤ 'Z') || ('0' ≤ c && c ≤ '9') ||
  c = '_' || c = ' ' || c = '\t' || c = '\n' || c = '\r' ||
  c = Char.ofNat 11 || c = Char.ofNat 12

/-- Greedy (possibly empty) match length of `(\\[a-zA-Z0-9_\s]+)*` at one
position; each repetition consumes at least two characters, so the input
length bounds the recursion. -/
def keyStarLenAux : Nat → List Char → Nat
  | 0, _ => 0
  | fuel + 1, cs =>
    match cs with
    | '\\' :: rest =>
      let run := rest.takeWhile isKeyChar
      if run.isEmpty then 0
      else run.length + 1 + keyStarLenAux fuel (rest.drop run.length)
    | _ => 0

def keyStarLen (cs : List Char) : Nat := keyStarLenAux cs.length cs

/-- `KEY_PATTERN.test(key)` for `KEY_PATTERN = /(\\[a-zA-Z0-9_\s]+)*/`
(src/registry.ts line 6).  `test` performs an unanchored search; the
pattern is a bare, unanchored Kleene star, which matches the empty
substring at position 0 of every input (`keyStarLen` is the greedy match
length found there), so the test succeeds on every string. -/
def KEY_PATTERN_test (cs : List Char) : Bool := decide (0 ≤ keyStarLen cs)

/-- The key-syntax check as the spec words it: the path consists only of
backslash-separated segments of word characters and spaces — the anchored
reading of `KEY_PATTERN` applied to the post-hive remainder. -/
def segmentsOnlyAux : Nat → List Char → Bool
  | 0, _ => false
  | _ + 1, [] => true
  | fuel + 1, '\\' :: rest =>
    let run := rest.takeWhile isKeyChar
    !run.isEmpty && segmentsOnlyAux fuel (rest.drop run.length)
  | _ + 1, _ => false

def segmentsOnly (cs : List Char) : Bool := segmentsOnlyAux (cs.length + 1) cs

/-- The four distinct validation errors `getRawKey` can throw. -/
inductive RegErrKind where
  | illegalHive
  | remoteHive
  | illegalKey
  | illegalView
deriving DecidableEq, Repr

/-- The validation/normalization pipeline of `getRawKey` (src/registry.ts
lines 509-537): host stripping, hive resolution with short→long
normalization, the remote-hive check, the `KEY_PATTERN` test, and the view
check (`if (view && view != '32' && view != '64')` — a present-but-empty
view is falsy and skips the check, like the absent one).  Returns the host
and the normalized key. -/
def parseKeyPath (key : List Char) (view : Option String) :
    Except RegErrKind (List Char × List Char) :=
  let hk := stripHost key
  let host := hk.1
  let key1 := hk.2
  let i := (key1.findIdx? (fun c => c = '\\')).getD key1.length
  let tok : String := String.mk (key1.take i)
  let resolved : Except RegErrKind (Nat × List Char) :=
    match HIVES_LONG.findIdx? (fun h => h = tok) with
    | some j => .ok (j, key1)
    | none =>
      match HIVES_SHORT.findIdx? (fun h => h = tok) with
      | none => .error .illegalHive
      | some j => .ok (j, (HIVES_LONG.getD j "").data ++ key1.drop i)
  match resolved with
  | .error e => .error e
  | .ok jk =>
    if host ≠ [] ∧ jk.1 ≥ 2 then .error .remoteHive
    else if !KEY_PATTERN_test jk.2 then .error .illegalKey
    else
      match view with
      | none => .ok (host, jk.2)
      | some v =>
        if v ≠ "" ∧ v ≠ "32" ∧ v ≠ "64" then .error .illegalView
        else .ok (host, jk.2)

/-- `getRawKey(key, view)` (src/registry.ts lines 509-544): validate, then
resolve or create the root in the `view == '32' ? hosts32 : hosts64`
partition (an omitted view selects `hosts64`), then walk/create children
for each backslash-separated segment of the normalized key. -/
def getRawKey (st : Store) (key : String) (view : Option String) :
    Except RegErrKind (Store × NodeId) :=
  match parseKeyPath key.data view with
  | .error e => .error e
  | .ok hk2 =>
    let hostS : String := String.mk hk2.1
    let segs := (splitChar '\\' hk2.2).map String.mk
    match alookup (if view = some "32" then st.hosts32 else st.hosts64) hostS with
    | some r => .ok (subkey st r segs)
    | none =>
      let rid := st.nextId
      let st1 : Store :=
        {st with
          nodes := st.nodes ++ [(rid, ⟨hostS, none, [], none, false⟩)],
          nextId := rid + 1,
          hosts32 := if view = some "32" then st.hosts32 ++ [(hostS, rid)] else st.hosts32,
          hosts64 := if view = some "32" then st.hosts64 else st.hosts64 ++ [(hostS, rid)]}
      .ok (subkey st1 rid segs)

/-- Arena well-formedness of the node part: ids are below `nextId`, parent
links point downward to existing nodes, and child entries point to existing
nodes whose parent link points back. -/
def nodesWFb (st : Store) : Bool :=
  st.nodes.all (fun e => decide (e.1 < st.nextId)) &&
  st.nodes.all (fun e =>
    match e.2.parent with
    | none => true
    | some p => decide (p < e.1) && (alookup st.nodes p).isSome) &&
  st.nodes.all (fun e => e.2.keys.all (fun en =>
    match alookup st.nodes en.2 with
    | some ck => decide (ck.parent = some e.1)
    | none => false))

/-- Well-formedness of the host partitions: the two views are disjoint by
node identity, and each entry maps a host name to a parentless root node
bearing that name. -/
def hostsWFb (st : Store) : Bool :=
  st.hosts32.all (fun e32 => st.hosts64.all (fun e64 => decide (e32.2 ≠ e64.2))) &&
  st.hosts32.all (fun e =>
    match alookup st.nodes e.2 with
    | some k => decide (k.parent = none) && decide (k.name = e.1)
    | none => false) &&
  st.hosts64.all (fun e =>
    match alookup st.nodes e.2 with
    | some k => decide (k.parent = none) && decide (k.name = e.1)
    | none => false)

/-- Store invariant maintained by every reachable state of the cache. -/
def Store.WF (st : Store) : Prop := nodesWFb st = true ∧ hostsWFb st = true

/-! ### Codec lemmas -/

set_option maxRecDepth 4096 in
theorem byte2hex_facts : ∀ b : Nat, b < 256 →
    byte2hex b = [hexDigitChar (b / 16), hexDigitChar (b % 16)] ∧
    jsParseIntHex (byte2hex b) = some b := by decide

theorem hexDigitChar_facts : ∀ n : Nat, n < 16 →
    isHexDigit (hexDigitChar n) = true ∧ (hexDigitChar n = ',') = False ∧
    isLineTerm (hexDigitChar n) = false ∧ (hexDigitChar n = '"') = False := by decide

theorem byte2hex_shape (b : Nat) (hb : b < 256) :
    ∃ c1 c2, byte2hex b = [c1, c2] ∧ isHexDigit c1 = true ∧ isHexDigit c2 = true ∧
      c1 ≠ ',' ∧ c2 ≠ ',' := by
  obtain ⟨heq, -⟩ := byte2hex_facts b hb
  refine ⟨hexDigitChar (b / 16), hexDigitChar (b % 16), heq, ?_, ?_, ?_, ?_⟩
  · exact (hexDigitChar_facts (b / 16) (by omega)).1
  · exact (hexDigitChar_facts (b % 16) (by omega)).1
  · exact fun h => (hexDigitChar_facts (b / 16) (by omega)).2.1.mp h
  · exact fun h => (hexDigitChar_facts (b % 16) (by omega)).2.1.mp h

theorem payloadMatch_hex (bytes : List Nat) (hne : bytes ≠ [])
    (hb : ∀ x ∈ bytes, x < 256) :
    payloadMatch (bytes_to_hex bytes) = some (bytes_to_hex bytes) := by
  induction bytes with
  | nil => exact absurd rfl hne
  | cons b rest ih =>
    obtain ⟨c1, c2, hshape, h1, h2, -, -⟩ := byte2hex_shape b (hb b (by simp))
    cases rest with
    | nil =>
      simp only [bytes_to_hex, List.map, joinComma, hshape]
      simp [payloadMatch, h1, h2]
    | cons b2 rest2 =>
      have hrest : payloadMatch (bytes_to_hex (b2 :: rest2)) =
          some (bytes_to_hex (b2 :: rest2)) := by
        refine ih (by simp) ?_
        intro x hx
        exact hb x (by simp [hx])
      simp only [bytes_to_hex, List.map, joinComma, hshape] at hrest ⊢
      simp [payloadMatch, h1, h2, hrest]

theorem splitChar_ne_nil (sep : Char) (l : List Char) : splitChar sep l ≠ [] := by
  cases l with
  | nil => simp [splitChar]
  | cons c rest =>
    by_cases h : c = sep
    · simp [splitChar, h]
    · simp only [splitChar, if_neg h]
      cases hs : splitChar sep rest with
      | nil => simp
      | cons a b => simp

theorem splitChar_no_sep (sep : Char) (l : List Char) (h : ∀ c ∈ l, c ≠ sep) :
    splitChar sep l = [l] := by
  induction l with
  | nil => rfl
  | cons c rest ih =>
    have hc : c ≠ sep := h c (by simp)
    have hrest := ih (fun x hx => h x (by simp [hx]))
    simp [splitChar, hc, hrest]

theorem splitChar_append (sep : Char) (l t : List Char) (h : ∀ c ∈ l, c ≠ sep) :
    splitChar sep (l ++ sep :: t) = l :: splitChar sep t := by
  induction l with
  | nil => simp [splitChar]
  | cons c rest ih =>
    have hc : c ≠ sep := h c (by simp)
    have hrest := ih (fun x hx => h x (by simp [hx]))
    simp [splitChar, hc, hrest]

theorem splitChar_bytes_to_hex (bytes : List Nat) (hne : bytes ≠ [])
    (hb : ∀ x ∈ bytes, x < 256) :
    splitChar ',' (bytes_to_hex bytes) = bytes.map byte2hex := by
  induction bytes with
  | nil => exact absurd rfl hne
  | cons b rest ih =>
    obtain ⟨c1, c2, hshape, -, -, hc1, hc2⟩ := byte2hex_shape b (hb b (by simp))
    have hnosep : ∀ c ∈ byte2hex b, c ≠ ',' := by
      intro c hc
      rw [hshape] at hc
      simp only [List.mem_cons, List.not_mem_nil, or_false] at hc
      rcases hc with rfl | rfl
      · exact hc1
      · exact hc2
    cases rest with
    | nil =>
      simp only [bytes_to_hex, List.map, joinComma]
      exact splitChar_no_sep ',' (byte2hex b) hnosep
    | cons b2 rest2 =>
      have hrest : splitChar ',' (bytes_to_hex (b2 :: rest2)) =
          (b2 :: rest2).map byte2hex := by
        refine ih (by simp) ?_
        intro x hx
        exact hb x (by simp [hx])
      simp only [bytes_to_hex, List.map, joinComma] at hrest ⊢
      rw [splitChar_append ',' (byte2hex b) _ hnosep, hrest]

theorem decode_payload (bytes : List Nat) (hne : bytes ≠ [])
    (hb : ∀ x ∈ bytes, x < 256) :
    (splitChar ',' (bytes_to_hex bytes)).map
      (fun v => (jsParseIntHex v).getD 0 % 256) = bytes := by
  rw [splitChar_bytes_to_hex bytes hne hb, List.map_map]
  have : ∀ x ∈ bytes, ((fun v => (jsParseIntHex v).getD 0 % 256) ∘ byte2hex) x = x := by
    intro x hx
    have hxb := hb x hx
    obtain ⟨-, hparse⟩ := byte2hex_facts x hxb
    simp [Function.comp, hparse, Nat.mod_eq_of_lt hxb]
  calc bytes.map ((fun v => (jsParseIntHex v).getD 0 % 256) ∘ byte2hex)
      = bytes.map id := List.map_congr_left this
    _ = bytes := List.map_id bytes

theorem lastQuoteIdx_go_append (l : List Char) (hnl : ∀ c ∈ l, isLineTerm c = false) :
    ∀ (i : Nat) (best : Option Nat),
      lastQuoteIdx.go (l ++ ['"']) i best = some (i + l.length) := by
  induction l with
  | nil =>
    intro i best
    have hq : isLineTerm '"' = false := by decide
    simp [lastQuoteIdx.go, hq]
  | cons c rest ih =>
    intro i best
    have hc : isLineTerm c = false := hnl c (by simp)
    have hrest := ih (fun x hx => hnl x (by simp [hx]))
    simp only [List.cons_append, lastQuoteIdx.go, hc, Bool.false_eq_true, if_false,
      List.append_eq]
    rw [hrest]
    simp only [List.length_cons]
    congr 1
    omega

theorem lastQuoteIdx_append (l : List Char) (hnl : ∀ c ∈ l, isLineTerm c = false) :
    lastQuoteIdx (l ++ ['"']) = some l.length := by
  have := lastQuoteIdx_go_append l hnl 0 none
  simpa [lastQuoteIdx] using this

theorem take_length_append (l t : List Char) : (l ++ t).take l.length = l := by
  induction l with
  | nil => rfl
  | cons c rest ih => simp [List.take, ih]

/-- Decoding a quoted string whose content is non-empty and free of line
terminators recovers an `SZ` with that content. -/
theorem regstring_quoted (s : String) (hne : s.data ≠ [])
    (hnl : ∀ c ∈ s.data, isLineTerm c = false) :
    regstring_to_data ('"' :: s.data ++ ['"']) = .ok (some (.SZ s)) := by
  have hq : matchQuoted ('"' :: s.data ++ ['"']) = some s.data := by
    have h1 : matchQuoted ('"' :: s.data ++ ['"']) =
        (lastQuoteIdx (s.data ++ ['"'])).map (fun j => (s.data ++ ['"']).take j) := rfl
    rw [h1, lastQuoteIdx_append s.data hnl]
    simp [take_length_append]
  have h2 : execAt ('"' :: s.data ++ ['"']) =
      some ⟨some s.data, none, none, none, none⟩ := by
    simp only [execAt, hq]
  have hexec : regexec ('"' :: s.data ++ ['"']) =
      some ⟨some s.data, none, none, none, none⟩ := by
    show (match execAt ('"' :: s.data ++ ['"']) with
          | some m => some m
          | none => regexec (s.data ++ ['"'])) = _
    rw [h2]
  simp only [regstring_to_data, hexec, jsTruthy, Option.getD]
  have : s.data.isEmpty = false := by
    cases h : s.data with
    | nil => exact absurd h hne
    | cons a l => simp [List.isEmpty]
  simp [this]

theorem regexec_cons (c : Char) (rest : List Char) (m : ExecMatch)
    (h : execAt (c :: rest) = some m) : regexec (c :: rest) = some m := by
  show (match execAt (c :: rest) with
        | some m => some m
        | none => regexec rest) = some m
  rw [h]

theorem matchHexAlt_tag0 (payload : List Char)
    (hp : payloadMatch payload = some payload) :
    matchHexAlt ('h' :: 'e' :: 'x' :: '(' :: '0' :: ')' :: ':' :: payload) =
      some (some ['(', '0', ')'], payload) := by
  have h1 : matchHexAlt ('h' :: 'e' :: 'x' :: '(' :: '0' :: ')' :: ':' :: payload) =
      (payloadMatch payload).map (fun p => (some ['(', '0', ')'], p)) := rfl
  rw [h1, hp]
  rfl

theorem matchHexAlt_plain (payload : List Char)
    (hp : payloadMatch payload = some payload) :
    matchHexAlt ('h' :: 'e' :: 'x' :: ':' :: payload) = some (none, payload) := by
  have h1 : matchHexAlt ('h' :: 'e' :: 'x' :: ':' :: payload) =
      (payloadMatch payload).map (fun p => ((none : Option (List Char)), p)) := rfl
  rw [h1, hp]
  rfl

/-- Decoding `hex(0):…` returns a `NONE` with the parsed bytes — via the
`default` arm: `parseInt("(0)", 16)` is `NaN`, not `0`. -/
theorem regstring_hex0 (bytes : List Nat) (hne : bytes ≠ [])
    (hb : ∀ x ∈ bytes, x < 256) :
    regstring_to_data ("hex(0):".data ++ bytes_to_hex bytes) =
      .ok (some (.NONE bytes)) := by
  have hpm := payloadMatch_hex bytes hne hb
  have hds : "hex(0):".data ++ bytes_to_hex bytes =
      'h' :: 'e' :: 'x' :: '(' :: '0' :: ')' :: ':' :: bytes_to_hex bytes := rfl
  rw [hds]
  have hq : matchQuoted
      ('h' :: 'e' :: 'x' :: '(' :: '0' :: ')' :: ':' :: bytes_to_hex bytes) = none := rfl
  have hdw : matchDword
      ('h' :: 'e' :: 'x' :: '(' :: '0' :: ')' :: ':' :: bytes_to_hex bytes) = none := rfl
  have hea : execAt ('h' :: 'e' :: 'x' :: '(' :: '0' :: ')' :: ':' :: bytes_to_hex bytes) =
      some ⟨none, none, none, some ['(', '0', ')'], some (bytes_to_hex bytes)⟩ := by
    simp only [execAt, hq, hdw, matchHexAlt_tag0 (bytes_to_hex bytes) hpm]
  have hexec := regexec_cons _ _ _ hea
  have hparse : jsParseIntHex ['(', '0', ')'] = none := rfl
  simp only [regstring_to_data, hexec, jsTruthy, hparse]
  rw [decode_payload bytes hne hb]
  simp

/-- Decoding untagged `hex:…` returns a `BINARY` with the parsed bytes. -/
theorem regstring_hexPlain (bytes : List Nat) (hne : bytes ≠ [])
    (hb : ∀ x ∈ bytes, x < 256) :
    regstring_to_data ("hex:".data ++ bytes_to_hex bytes) =
      .ok (some (.BINARY bytes)) := by
  have hpm := payloadMatch_hex bytes hne hb
  have hds : "hex:".data ++ bytes_to_hex bytes =
      'h' :: 'e' :: 'x' :: ':' :: bytes_to_hex bytes := rfl
  rw [hds]
  have hq : matchQuoted ('h' :: 'e' :: 'x' :: ':' :: bytes_to_hex bytes) = none := rfl
  have hdw : matchDword ('h' :: 'e' :: 'x' :: ':' :: bytes_to_hex bytes) = none := rfl
  have hea : execAt ('h' :: 'e' :: 'x' :: ':' :: bytes_to_hex bytes) =
      some ⟨none, none, none, none, some (bytes_to_hex bytes)⟩ := by
    simp only [execAt, hq, hdw, matchHexAlt_plain (bytes_to_hex bytes) hpm]
  have hexec := regexec_cons _ _ _ hea
  simp only [regstring_to_data, hexec, jsTruthy]
  rw [decode_payload bytes hne hb]
  simp

theorem matchQuoted_shape (cs : List Char) (t : List Char)
    (h : matchQuoted cs = some t) :
    ∃ r j, cs = '"' :: r ∧ lastQuoteIdx r = some j ∧ t = r.take j := by
  unfold matchQuoted at h
  split at h
  · next r =>
    cases hj : lastQuoteIdx r with
    | none => rw [hj] at h; exact absurd h (by simp)
    | some j =>
      rw [hj] at h
      simp at h
      exact ⟨r, j, rfl, hj, h.symm⟩
  · exact absurd h (by simp)

theorem matchDword_shape (cs : List Char) (ds : List Char)
    (h : matchDword cs = some ds) :
    ∃ r, cs = 'd' :: 'w' :: 'o' :: 'r' :: 'd' :: ':' :: r ∧ ds = r.take 8 ∧
      (r.take 8).length = 8 ∧ (r.take 8).all isHexDigit = true := by
  unfold matchDword at h
  split at h
  · next r =>
    by_cases hc : (r.take 8).length = 8 ∧ (r.take 8).all isHexDigit = true
    · refine ⟨r, rfl, ?_, hc.1, hc.2⟩
      rw [if_pos (by simp [hc.1, hc.2])] at h
      exact (Option.some.inj h).symm
    · rw [if_neg ?_] at h
      · exact absurd h (by simp)
      · intro hx
        simp only [Bool.and_eq_true, decide_eq_true_eq] at hx
        exact hc ⟨hx.1, hx.2⟩
  · exact absurd h (by simp)

theorem matchHexAlt_shape (cs : List Char) (tag : Option (List Char))
    (pay : List Char) (h : matchHexAlt cs = some (tag, pay)) :
    (∃ r, cs = 'h' :: 'e' :: 'x' :: r) ∧
    (tag = none ∨ ∃ tb, tag = some ('(' :: tb)) := by
  unfold matchHexAlt at h
  split at h
  · next r =>
    refine ⟨⟨r, rfl⟩, ?_⟩
    split at h
    · next r2 =>
      cases hp : payloadMatch r2 with
      | none => rw [hp] at h; exact absurd h (by simp)
      | some p => rw [hp] at h; simp at h; exact Or.inl h.1.symm
    · next r2 =>
      simp only [] at h
      split at h
      · next r4 heq =>
        split at h
        · exact absurd h (by simp)
        · cases hp : payloadMatch r4 with
          | none => rw [hp] at h; exact absurd h (by simp)
          | some p =>
            rw [hp] at h
            simp at h
            exact Or.inr ⟨_, h.1.symm⟩
      · exact absurd h (by simp)
    · exact absurd h (by simp)
  · exact absurd h (by simp)

theorem lastQuoteIdx_go_ltFree : ∀ (cs : List Char) (i : Nat) (best : Option Nat)
    (j : Nat), lastQuoteIdx.go cs i best = some j →
    best = some j ∨ (i ≤ j ∧ ∀ c ∈ cs.take (j - i), isLineTerm c = false) := by
  intro cs
  induction cs with
  | nil =>
    intro i best j h
    exact Or.inl h
  | cons c rest ih =>
    intro i best j h
    rw [show lastQuoteIdx.go (c :: rest) i best =
      (if isLineTerm c then best
       else lastQuoteIdx.go rest (i + 1) (if c = '"' then some i else best)) from rfl] at h
    by_cases hlt : isLineTerm c
    · rw [if_pos hlt] at h
      exact Or.inl h
    · rw [if_neg hlt] at h
      have hlf : isLineTerm c = false := by simpa using hlt
      rcases ih (i + 1) _ j h with hb | ⟨hij, hpre⟩
      · by_cases hq : c = '"'
        · rw [if_pos hq] at hb
          have hji : j = i := (Option.some.inj hb).symm
          subst hji
          right
          refine ⟨Nat.le_refl _, ?_⟩
          simp
        · rw [if_neg hq] at hb
          exact Or.inl hb
      · right
        refine ⟨Nat.le_trans (Nat.le_succ i) hij, ?_⟩
        have hsub : j - i = (j - (i + 1)) + 1 := by omega
        rw [hsub]
        intro x hx
        rw [List.take_succ_cons] at hx
        rcases List.mem_cons.mp hx with rfl | hx2
        · exact hlf
        · exact hpre x hx2

theorem matchQuoted_ltFree (cs t : List Char) (h : matchQuoted cs = some t) :
    ∀ c ∈ t, isLineTerm c = false := by
  obtain ⟨r, j, -, hj, ht⟩ := matchQuoted_shape cs t h
  rcases lastQuoteIdx_go_ltFree r 0 none j hj with hb | ⟨-, hpre⟩
  · exact absurd hb (by simp)
  · intro c hc
    rw [ht] at hc
    exact hpre c (by simpa using hc)

theorem execAt_groups (cs : List Char) (m : ExecMatch) (h : execAt cs = some m) :
    (m.g1 = none ∨ ∃ t, m.g1 = some t ∧ ∀ c ∈ t, isLineTerm c = false) ∧
    (m.g4 = none ∨ ∃ tb, m.g4 = some ('(' :: tb)) := by
  unfold execAt at h
  cases hq : matchQuoted cs with
  | some t =>
    rw [hq] at h
    have hm : m = ⟨some t, none, none, none, none⟩ := (Option.some.inj h).symm
    subst hm
    exact ⟨Or.inr ⟨t, rfl, matchQuoted_ltFree cs t hq⟩, Or.inl rfl⟩
  | none =>
    rw [hq] at h
    cases hd : matchDword cs with
    | some d =>
      rw [hd] at h
      have hm : m = ⟨none, some "dword".data, some d, none, none⟩ :=
        (Option.some.inj h).symm
      subst hm
      exact ⟨Or.inl rfl, Or.inl rfl⟩
    | none =>
      rw [hd] at h
      cases hh : matchHexAlt cs with
      | some tp =>
        obtain ⟨tag, pay⟩ := tp
        rw [hh] at h
        have hm : m = ⟨none, none, none, tag, some pay⟩ := (Option.some.inj h).symm
        subst hm
        exact ⟨Or.inl rfl, (matchHexAlt_shape cs tag pay hh).2⟩
      | none =>
        rw [hh] at h
        exact absurd h (by simp)

theorem regexec_groups : ∀ (cs : List Char) (m : ExecMatch), regexec cs = some m →
    (m.g1 = none ∨ ∃ t, m.g1 = some t ∧ ∀ c ∈ t, isLineTerm c = false) ∧
    (m.g4 = none ∨ ∃ tb, m.g4 = some ('(' :: tb)) := by
  intro cs
  induction cs with
  | nil => intro m h; exact absurd h (by simp [regexec])
  | cons c rest ih =>
    intro m h
    rw [show regexec (c :: rest) = (match execAt (c :: rest) with
      | some m => some m | none => regexec rest) from rfl] at h
    cases hea : execAt (c :: rest) with
    | some m2 =>
      rw [hea] at h
      have hm : m2 = m := Option.some.inj h
      subst hm
      exact execAt_groups (c :: rest) m2 hea
    | none =>
      rw [hea] at h
      exact ih m h

theorem jsParseIntHex_paren (r : List Char) : jsParseIntHex ('(' :: r) = none := rfl

theorem decoder_image (cs : List Char) (d : Data)
    (h : regstring_to_data cs = .ok (some d)) :
    (∃ s, d = .SZ s) ∨ (∃ v, d = .DWORD v) ∨ (∃ b, d = .BINARY b) ∨
      (∃ b, d = .NONE b) := by
  unfold regstring_to_data at h
  cases he : regexec cs with
  | none => rw [he] at h; exact absurd h (by simp)
  | some m =>
    simp only [he] at h
    by_cases h1 : jsTruthy m.g1
    · rw [if_pos h1] at h
      simp at h
      exact Or.inl ⟨_, h.symm⟩
    · rw [if_neg h1] at h
      by_cases h2 : jsTruthy m.g2
      · rw [if_pos h2] at h
        simp at h
        exact Or.inr (Or.inl ⟨_, h.symm⟩)
      · rw [if_neg h2] at h
        cases h5 : m.g5 with
        | none => simp only [h5] at h; exact absurd h (by simp)
        | some p =>
          simp only [h5] at h
          rcases (regexec_groups cs m he).2 with h4 | ⟨tb, h4⟩
          · simp only [h4] at h
            simp at h
            exact Or.inr (Or.inr (Or.inl ⟨_, h.symm⟩))
          · simp only [h4, jsParseIntHex_paren] at h
            simp at h
            exact Or.inr (Or.inr (Or.inr ⟨_, h.symm⟩))

theorem sz_image (cs : List Char) (s : String)
    (h : regstring_to_data cs = .ok (some (.SZ s))) :
    ∀ c ∈ s.data, isLineTerm c = false := by
  unfold regstring_to_data at h
  cases he : regexec cs with
  | none => rw [he] at h; exact absurd h (by simp)
  | some m =>
    simp only [he] at h
    by_cases h1 : jsTruthy m.g1
    · rw [if_pos h1] at h
      simp at h
      rcases (regexec_groups cs m he).1 with hg | ⟨t, hg, hfree⟩
      · rw [hg] at h1; exact absurd h1 (by simp [jsTruthy])
      · rw [hg] at h
        have hdata : s.data = t := by
          rw [← h]
          rfl
        intro c hc
        rw [hdata] at hc
        exact hfree c hc
    · rw [if_neg h1] at h
      by_cases h2 : jsTruthy m.g2
      · rw [if_pos h2] at h
        simp at h
      · rw [if_neg h2] at h
        cases h5 : m.g5 with
        | none => simp only [h5] at h; exact absurd h (by simp)
        | some p =>
          simp only [h5] at h
          rcases (regexec_groups cs m he).2 with h4 | ⟨tb, h4⟩
          · simp only [h4] at h
            simp at h
          · simp only [h4, jsParseIntHex_paren] at h
            simp at h

theorem hexDigitVal_hexDigitChar : ∀ n : Nat, n < 16 →
    hexDigitVal (hexDigitChar n) = n := by decide

theorem hexRepAux_chars : ∀ (fuel n : Nat), ∀ c ∈ hexRepAux fuel n,
    isHexDigit c = true := by
  intro fuel
  induction fuel with
  | zero => intro n c hc; simp [hexRepAux] at hc
  | succ fuel ih =>
    intro n c hc
    rw [show hexRepAux (fuel + 1) n = (if n < 16 then [hexDigitChar n]
        else hexRepAux fuel (n / 16) ++ [hexDigitChar (n % 16)]) from rfl] at hc
    by_cases h16 : n < 16
    · rw [if_pos h16] at hc
      simp at hc
      subst hc
      exact (hexDigitChar_facts n h16).1
    · rw [if_neg h16] at hc
      rcases List.mem_append.mp hc with h | h
      · exact ih (n / 16) c h
      · simp at h
        subst h
        exact (hexDigitChar_facts (n % 16) (Nat.mod_lt _ (by omega))).1

theorem hexRep_chars (n : Nat) : ∀ c ∈ hexRep n, isHexDigit c = true :=
  hexRepAux_chars (n + 1) n

theorem hexRep_ne_nil (n : Nat) : hexRep n ≠ [] := by
  unfold hexRep
  rw [show hexRepAux (n + 1) n = (if n < 16 then [hexDigitChar n]
      else hexRepAux n (n / 16) ++ [hexDigitChar (n % 16)]) from rfl]
  by_cases h : n < 16
  · rw [if_pos h]; simp
  · rw [if_neg h]; simp

theorem lt_sixteen_pow (n : Nat) : n < 16 ^ (n + 1) := by
  calc n < 2 ^ n := Nat.lt_two_pow n
    _ ≤ 16 ^ n := Nat.pow_le_pow_left (by norm_num) n
    _ < 16 ^ (n + 1) := Nat.pow_lt_pow_right (by norm_num) (Nat.lt_succ_self n)

theorem hexRepAux_fold : ∀ (fuel n : Nat), n < 16 ^ fuel →
    (hexRepAux fuel n).foldl (fun acc c => acc * 16 + hexDigitVal c) 0 = n := by
  intro fuel
  induction fuel with
  | zero =>
    intro n h
    have hn : n = 0 := by simpa using h
    subst hn
    rfl
  | succ fuel ih =>
    intro n h
    rw [show hexRepAux (fuel + 1) n = (if n < 16 then [hexDigitChar n]
        else hexRepAux fuel (n / 16) ++ [hexDigitChar (n % 16)]) from rfl]
    by_cases h16 : n < 16
    · rw [if_pos h16]
      show 0 * 16 + hexDigitVal (hexDigitChar n) = n
      rw [hexDigitVal_hexDigitChar n h16]
      omega
    · rw [if_neg h16]
      rw [List.foldl_append]
      have hdiv : n / 16 < 16 ^ fuel := by
        rw [Nat.div_lt_iff_lt_mul (by norm_num)]
        calc n < 16 ^ (fuel + 1) := h
          _ = 16 ^ fuel * 16 := by ring
      rw [ih (n / 16) hdiv]
      show n / 16 * 16 + hexDigitVal (hexDigitChar (n % 16)) = n
      rw [hexDigitVal_hexDigitChar (n % 16) (Nat.mod_lt _ (by omega))]
      omega

theorem hexdigit_not_ws (c : Char) (h : isHexDigit c = true) : isJsWs c = false := by
  have h1 : ¬ c = ' ' := fun e => by rw [e] at h; exact absurd h (by decide)
  have h2 : ¬ c = '\t' := fun e => by rw [e] at h; exact absurd h (by decide)
  have h3 : ¬ c = '\n' := fun e => by rw [e] at h; exact absurd h (by decide)
  have h4 : ¬ c = '\r' := fun e => by rw [e] at h; exact absurd h (by decide)
  have h5 : ¬ c = Char.ofNat 11 := fun e => by rw [e] at h; exact absurd h (by decide)
  have h6 : ¬ c = Char.ofNat 12 := fun e => by rw [e] at h; exact absurd h (by decide)
  simp [isJsWs, h1, h2, h3, h4, h5, h6]

theorem takeWhile_all {p : Char → Bool} : ∀ l : List Char,
    (∀ c ∈ l, p c = true) → l.takeWhile p = l := by
  intro l
  induction l with
  | nil => intro h; rfl
  | cons c rest ih =>
    intro h
    rw [List.takeWhile_cons, h c (by simp)]
    simp [ih (fun x hx => h x (by simp [hx]))]

theorem hexRep_fold (v : Nat) :
    (hexRep v).foldl (fun a c => a * 16 + hexDigitVal c) 0 = v :=
  hexRepAux_fold (v + 1) v (lt_sixteen_pow v)

theorem jsParseIntHex_hexRep (v : Nat) : jsParseIntHex (hexRep v) = some v := by
  have hch := hexRep_chars v
  obtain ⟨c, rest, hr⟩ : ∃ c rest, hexRep v = c :: rest := by
    cases h : hexRep v with
    | nil => exact absurd h (hexRep_ne_nil v)
    | cons a l => exact ⟨a, l, rfl⟩
  have hc : isHexDigit c = true := hch c (by rw [hr]; simp)
  have hnws : isJsWs c = false := hexdigit_not_ws c hc
  have hdrop : (hexRep v).dropWhile isJsWs = hexRep v := by
    rw [hr, List.dropWhile_cons, hnws]
    simp
  have htake : (hexRep v).takeWhile isHexDigit = hexRep v := takeWhile_all _ hch
  unfold jsParseIntHex
  simp only [hdrop, htake]
  rw [show (hexRep v).isEmpty = false from by rw [hr]; rfl]
  simp only [Bool.false_eq_true, if_false]
  rw [hexRep_fold v]

theorem hexRepAux_len_le : ∀ (fuel n k : Nat), 0 < k → n < 16 ^ k →
    (hexRepAux fuel n).length ≤ k := by
  intro fuel
  induction fuel with
  | zero => intro n k hk _; simp [hexRepAux]
  | succ fuel ih =>
    intro n k hk hn
    rw [show hexRepAux (fuel + 1) n = (if n < 16 then [hexDigitChar n]
        else hexRepAux fuel (n / 16) ++ [hexDigitChar (n % 16)]) from rfl]
    by_cases h16 : n < 16
    · rw [if_pos h16]
      simpa using hk
    · rw [if_neg h16]
      rw [List.length_append]
      have hk2 : 2 ≤ k := by
        by_contra hcon
        have hk1 : k = 1 := by omega
        rw [hk1] at hn
        simp at hn
        omega
      have hdiv : n / 16 < 16 ^ (k - 1) := by
        rw [Nat.div_lt_iff_lt_mul (by norm_num)]
        calc n < 16 ^ k := hn
          _ = 16 ^ (k - 1) * 16 := by
            rw [← Nat.pow_succ]
            congr 1
            omega
      have := ih (n / 16) (k - 1) (by omega) hdiv
      simp only [List.length_cons, List.length_nil]
      omega

theorem hexRepAux_len_ge : ∀ (fuel n k : Nat), n < 16 ^ fuel → 16 ^ k ≤ n →
    k + 1 ≤ (hexRepAux fuel n).length := by
  intro fuel
  induction fuel with
  | zero =>
    intro n k hf hk
    have hn0 : n = 0 := by simpa using hf
    subst hn0
    have hp : 0 < 16 ^ k := pow_pos (by norm_num) k
    omega
  | succ fuel ih =>
    intro n k hf hk
    rw [show hexRepAux (fuel + 1) n = (if n < 16 then [hexDigitChar n]
        else hexRepAux fuel (n / 16) ++ [hexDigitChar (n % 16)]) from rfl]
    by_cases h16 : n < 16
    · rw [if_pos h16]
      have hk0 : k = 0 := by
        by_contra hcon
        have h1 : 1 ≤ k := by omega
        have : 16 ^ 1 ≤ 16 ^ k := Nat.pow_le_pow_right (by norm_num) h1
        simp at this
        omega
      subst hk0
      simp
    · rw [if_neg h16]
      rw [List.length_append]
      cases k with
      | zero => simp only [List.length_cons, List.length_nil]; omega
      | succ k2 =>
        have hdiv1 : n / 16 < 16 ^ fuel := by
          rw [Nat.div_lt_iff_lt_mul (by norm_num)]
          calc n < 16 ^ (fuel + 1) := hf
            _ = 16 ^ fuel * 16 := by ring
        have hdiv2 : 16 ^ k2 ≤ n / 16 := by
          rw [Nat.le_div_iff_mul_le (by norm_num)]
          calc 16 ^ k2 * 16 = 16 ^ (k2 + 1) := by rw [Nat.pow_succ]
            _ ≤ n := hk
        have := ih (n / 16) k2 hdiv1 hdiv2
        simp only [List.length_cons, List.length_nil]
        omega

theorem hexRep_len8 (v : Nat) (h1 : 16 ^ 7 ≤ v) (h2 : v < 16 ^ 8) :
    (hexRep v).length = 8 := by
  have hle := hexRepAux_len_le (v + 1) v 8 (by norm_num) h2
  have hge := hexRepAux_len_ge (v + 1) v 7 (lt_sixteen_pow v) h1
  show (hexRepAux (v + 1) v).length = 8
  omega

theorem hexRep_len_lt8 (v : Nat) (h : v < 16 ^ 7) : (hexRep v).length ≤ 7 :=
  hexRepAux_len_le (v + 1) v 7 (by norm_num) h

theorem regexec_step_none (c : Char) (l : List Char) (h : execAt (c :: l) = none) :
    regexec (c :: l) = regexec l := by
  rw [show regexec (c :: l) = (match execAt (c :: l) with
      | some m => some m | none => regexec l) from rfl, h]

theorem regexec_hexdigits_none : ∀ cs : List Char,
    (∀ c ∈ cs, isHexDigit c = true) → regexec cs = none := by
  intro cs
  induction cs with
  | nil => intro _; rfl
  | cons c rest ih =>
    intro h
    have hc : isHexDigit c = true := h c (by simp)
    have hea : execAt (c :: rest) = none := by
      cases hq : matchQuoted (c :: rest) with
      | some t =>
        obtain ⟨r, j, heq, -, -⟩ := matchQuoted_shape _ _ hq
        injection heq with h1 h2
        rw [h1] at hc
        exact absurd hc (by decide)
      | none =>
        cases hd : matchDword (c :: rest) with
        | some ds =>
          obtain ⟨r, heq, -, -, -⟩ := matchDword_shape _ _ hd
          injection heq with h1 h2
          have hw : isHexDigit 'w' = true := by
            apply h
            rw [h2]
            simp
          exact absurd hw (by decide)
        | none =>
          cases hh : matchHexAlt (c :: rest) with
          | some tp =>
            obtain ⟨tag, pay⟩ := tp
            obtain ⟨⟨r, heq⟩, -⟩ := matchHexAlt_shape _ tag pay hh
            injection heq with h1 h2
            rw [h1] at hc
            exact absurd hc (by decide)
          | none => simp [execAt, hq, hd, hh]
    rw [regexec_step_none c rest hea]
    exact ih (fun x hx => h x (by simp [hx]))

theorem regstring_dword8 (v : Nat) (h1 : 16 ^ 7 ≤ v) (h2 : v < 16 ^ 8) :
    regstring_to_data ("dword:".data ++ hexRep v) = .ok (some (.DWORD v)) := by
  have hlen : (hexRep v).length = 8 := hexRep_len8 v h1 h2
  have hall : (hexRep v).all isHexDigit = true :=
    List.all_eq_true.mpr (fun c hc => hexRep_chars v c hc)
  have hds : "dword:".data ++ hexRep v =
      'd' :: 'w' :: 'o' :: 'r' :: 'd' :: ':' :: hexRep v := rfl
  rw [hds]
  have htake : (hexRep v).take 8 = hexRep v := by
    rw [← hlen]
    exact List.take_length _
  have hmd : matchDword ('d' :: 'w' :: 'o' :: 'r' :: 'd' :: ':' :: hexRep v) =
      some (hexRep v) := by
    rw [show matchDword ('d' :: 'w' :: 'o' :: 'r' :: 'd' :: ':' :: hexRep v) =
      (if decide (((hexRep v).take 8).length = 8) && ((hexRep v).take 8).all isHexDigit
       then some ((hexRep v).take 8) else none) from rfl]
    rw [htake]
    rw [if_pos (by simp [hlen, hall])]
  have hq : matchQuoted ('d' :: 'w' :: 'o' :: 'r' :: 'd' :: ':' :: hexRep v) =
      none := rfl
  have hea : execAt ('d' :: 'w' :: 'o' :: 'r' :: 'd' :: ':' :: hexRep v) =
      some ⟨none, some "dword".data, some (hexRep v), none, none⟩ := by
    simp only [execAt, hq, hmd]
  have hexec := regexec_cons _ _ _ hea
  simp only [regstring_to_data, hexec]
  rw [show jsTruthy (⟨none, some "dword".data, some (hexRep v), none, none⟩ :
      ExecMatch).g1 = false from rfl]
  rw [show jsTruthy (⟨none, some "dword".data, some (hexRep v), none, none⟩ :
      ExecMatch).g2 = true from rfl]
  simp only [Bool.false_eq_true, if_false, if_true]
  rw [show (⟨none, some "dword".data, some (hexRep v), none, none⟩ :
      ExecMatch).g3.getD [] = hexRep v from rfl]
  rw [jsParseIntHex_hexRep v]
  rfl

theorem regstring_dwordShort (v : Nat) (hv : v < 16 ^ 7) :
    regstring_to_data ("dword:".data ++ hexRep v) = .ok none := by
  have hlen : (hexRep v).length ≤ 7 := hexRep_len_lt8 v hv
  have hds : "dword:".data ++ hexRep v =
      'd' :: 'w' :: 'o' :: 'r' :: 'd' :: ':' :: hexRep v := rfl
  rw [hds]
  have htake : (hexRep v).take 8 = hexRep v :=
    List.take_of_length_le (by omega)
  have hmd : matchDword ('d' :: 'w' :: 'o' :: 'r' :: 'd' :: ':' :: hexRep v) =
      none := by
    rw [show matchDword ('d' :: 'w' :: 'o' :: 'r' :: 'd' :: ':' :: hexRep v) =
      (if decide (((hexRep v).take 8).length = 8) && ((hexRep v).take 8).all isHexDigit
       then some ((hexRep v).take 8) else none) from rfl]
    rw [htake]
    rw [if_neg ?_]
    simp only [Bool.and_eq_true, decide_eq_true_eq]
    intro hx
    omega
  have hq : matchQuoted ('d' :: 'w' :: 'o' :: 'r' :: 'd' :: ':' :: hexRep v) =
      none := rfl
  have hha : matchHexAlt ('d' :: 'w' :: 'o' :: 'r' :: 'd' :: ':' :: hexRep v) =
      none := rfl
  have hea : execAt ('d' :: 'w' :: 'o' :: 'r' :: 'd' :: ':' :: hexRep v) = none := by
    simp only [execAt, hq, hmd, hha]
  have hrest : regexec (hexRep v) = none := regexec_hexdigits_none _ (hexRep_chars v)
  have hexec : regexec ('d' :: 'w' :: 'o' :: 'r' :: 'd' :: ':' :: hexRep v) = none := by
    rw [regexec_step_none _ _ hea]
    rw [regexec_step_none _ _ (by rfl : execAt ('w' :: 'o' :: 'r' :: 'd' :: ':' :: hexRep v) = none)]
    rw [regexec_step_none _ _ (by rfl : execAt ('o' :: 'r' :: 'd' :: ':' :: hexRep v) = none)]
    rw [regexec_step_none _ _ (by rfl : execAt ('r' :: 'd' :: ':' :: hexRep v) = none)]
    rw [regexec_step_none _ _ ?hd5]
    rw [regexec_step_none _ _ (by rfl : execAt (':' :: hexRep v) = none)]
    exact hrest
    case hd5 =>
      have hq5 : matchQuoted ('d' :: ':' :: hexRep v) = none := rfl
      have hd5 : matchDword ('d' :: ':' :: hexRep v) = none := rfl
      have hh5 : matchHexAlt ('d' :: ':' :: hexRep v) = none := rfl
      simp only [execAt, hq5, hd5, hh5]
  simp only [regstring_to_data, hexec]

theorem not_in_image (cs : List Char) (d : Data)
    (h1 : ∀ s, d ≠ .SZ s) (h2 : ∀ v, d ≠ .DWORD v) (h3 : ∀ b, d ≠ .BINARY b)
    (h4 : ∀ b, d ≠ .NONE b) :
    regstring_to_data cs ≠ .ok (some d) := by
  intro h
  rcases decoder_image cs d h with ⟨x, hx⟩ | ⟨x, hx⟩ | ⟨x, hx⟩ | ⟨x, hx⟩
  · exact h1 x hx
  · exact h2 x hx
  · exact h3 x hx
  · exact h4 x hx

/-! ### Claim C1 -/

/-- C1 counterexample: the strict round-trip law fails.  The strict encoding
of `QWORD 255` is `hex(11):ff,…`, whose tag `11` contains the digit `1`,
which the decoder's tag class `[0-0a-fA-F]` rejects, so the whole regex
fails and decoding returns `undefined` — not `QWORD 255`. -/
theorem claim1_counterexample :
    regstring_to_data (data_to_regstring (.QWORD 255) true) = .ok none ∧
    regstring_to_data (data_to_regstring (.QWORD 255) true) ≠
      .ok (some (.QWORD 255)) := by
  refine ⟨rfl, fun h => ?_⟩
  rw [show regstring_to_data (data_to_regstring (.QWORD 255) true) = .ok none from rfl] at h
  exact Option.noConfusion (Except.ok.inj h)

/-- C1 (amended): the strict round-trip holds exactly for `NONE` and `BINARY`
values with a non-empty byte payload (the former via the decoder's `NaN`
default arm), for `SZ` values with non-empty, line-terminator-free text, and
for `DWORD` values of at least `0x10000000`, whose unpadded `dword:` rendering
has the exactly eight hex digits the decoder's dword alternative requires.
Everything else fails: a smaller `DWORD` and an empty `NONE`/`BINARY` payload
leave the regex without a match (`undefined`), the empty `SZ` encoding throws
a `TypeError`, an `SZ` containing a line terminator is never reconstructed
(the quoted capture cannot cross one), and the eight remaining variants
strict-encode to `hex(<tag>):` forms that can only decode to `undefined` or to
a `NONE`/`SZ`/`DWORD`/`BINARY` value, never back to their own variant (the
decoder's tag switch is dead: group 4 captures its parentheses, so `parseInt`
yields `NaN`). -/
theorem claim1_theorem :
    (∀ b : List Nat, b ≠ [] → (∀ x ∈ b, x < 256) →
        regstring_to_data (data_to_regstring (.NONE b) true) = .ok (some (.NONE b)) ∧
        regstring_to_data (data_to_regstring (.BINARY b) true) =
          .ok (some (.BINARY b))) ∧
    (∀ s : String, s.data ≠ [] → (∀ c ∈ s.data, isLineTerm c = false) →
        regstring_to_data (data_to_regstring (.SZ s) true) = .ok (some (.SZ s))) ∧
    (∀ v : Nat, 16 ^ 7 ≤ v → v < 16 ^ 8 →
        regstring_to_data (data_to_regstring (.DWORD v) true) =
          .ok (some (.DWORD v))) ∧
    (∀ v : Nat, v < 16 ^ 7 →
        regstring_to_data (data_to_regstring (.DWORD v) true) = .ok none) ∧
    regstring_to_data (data_to_regstring (.NONE []) true) = .ok none ∧
    regstring_to_data (data_to_regstring (.BINARY []) true) = .ok none ∧
    regstring_to_data (data_to_regstring (.SZ "") true) = .error .typeError ∧
    (∀ s : String, (∃ c ∈ s.data, isLineTerm c = true) →
        regstring_to_data (data_to_regstring (.SZ s) true) ≠ .ok (some (.SZ s))) ∧
    (∀ s : String, regstring_to_data (data_to_regstring (.EXPAND_SZ s) true) ≠
        .ok (some (.EXPAND_SZ s))) ∧
    (∀ v : Nat, regstring_to_data (data_to_regstring (.DWORD_BIG_ENDIAN v) true) ≠
        .ok (some (.DWORD_BIG_ENDIAN v))) ∧
    (∀ b : List Nat, regstring_to_data (data_to_regstring (.LINK b) true) ≠
        .ok (some (.LINK b))) ∧
    (∀ d : List String, regstring_to_data (data_to_regstring (.MULTI_SZ d) true) ≠
        .ok (some (.MULTI_SZ d))) ∧
    (∀ b : List Nat, regstring_to_data (data_to_regstring (.RESOURCE_LIST b) true) ≠
        .ok (some (.RESOURCE_LIST b))) ∧
    (∀ b : List Nat,
        regstring_to_data (data_to_regstring (.FULL_RESOURCE_DESCRIPTOR b) true) ≠
        .ok (some (.FULL_RESOURCE_DESCRIPTOR b))) ∧
    (∀ b : List Nat,
        regstring_to_data (data_to_regstring (.RESOURCE_REQUIREMENTS_LIST b) true) ≠
        .ok (some (.RESOURCE_REQUIREMENTS_LIST b))) ∧
    (∀ v : Nat, regstring_to_data (data_to_regstring (.QWORD v) true) ≠
        .ok (some (.QWORD v))) := by
  refine ⟨?_, ?_, ?_, ?_, rfl, rfl, rfl, ?_, ?_, ?_, ?_, ?_, ?_, ?_, ?_, ?_⟩
  · intro b hne hb
    exact ⟨regstring_hex0 b hne hb, regstring_hexPlain b hne hb⟩
  · intro s hne hnl
    exact regstring_quoted s hne hnl
  · intro v h1 h2
    exact regstring_dword8 v h1 h2
  · intro v hv
    exact regstring_dwordShort v hv
  · intro s hex h
    obtain ⟨c, hc, hlt⟩ := hex
    have hf := sz_image _ s h c hc
    rw [hlt] at hf
    exact Bool.noConfusion hf
  · intro s
    exact not_in_image _ _ (fun _ h => Data.noConfusion h) (fun _ h => Data.noConfusion h)
      (fun _ h => Data.noConfusion h) (fun _ h => Data.noConfusion h)
  · intro v
    exact not_in_image _ _ (fun _ h => Data.noConfusion h) (fun _ h => Data.noConfusion h)
      (fun _ h => Data.noConfusion h) (fun _ h => Data.noConfusion h)
  · intro b
    exact not_in_image _ _ (fun _ h => Data.noConfusion h) (fun _ h => Data.noConfusion h)
      (fun _ h => Data.noConfusion h) (fun _ h => Data.noConfusion h)
  · intro d
    exact not_in_image _ _ (fun _ h => Data.noConfusion h) (fun _ h => Data.noConfusion h)
      (fun _ h => Data.noConfusion h) (fun _ h => Data.noConfusion h)
  · intro b
    exact not_in_image _ _ (fun _ h => Data.noConfusion h) (fun _ h => Data.noConfusion h)
      (fun _ h => Data.noConfusion h) (fun _ h => Data.noConfusion h)
  · intro b
    exact not_in_image _ _ (fun _ h => Data.noConfusion h) (fun _ h => Data.noConfusion h)
      (fun _ h => Data.noConfusion h) (fun _ h => Data.noConfusion h)
  · intro b
    exact not_in_image _ _ (fun _ h => Data.noConfusion h) (fun _ h => Data.noConfusion h)
      (fun _ h => Data.noConfusion h) (fun _ h => Data.noConfusion h)
  · intro v
    exact not_in_image _ _ (fun _ h => Data.noConfusion h) (fun _ h => Data.noConfusion h)
      (fun _ h => Data.noConfusion h) (fun _ h => Data.noConfusion h)

/-- Witness for C1's amended theorem at concrete inputs: both round-trip
families, the eight-digit `DWORD` success, the short `DWORD` failure, a
line-terminator `SZ` failure and a dead-variant failure. -/
theorem claim1_witness :
    regstring_to_data (data_to_regstring (.NONE [222, 173]) true) =
      .ok (some (.NONE [222, 173])) ∧
    regstring_to_data (data_to_regstring (.SZ "a") true) = .ok (some (.SZ "a")) ∧
    regstring_to_data (data_to_regstring (.DWORD 305419896) true) =
      .ok (some (.DWORD 305419896)) ∧
    regstring_to_data (data_to_regstring (.DWORD 26) true) = .ok none ∧
    regstring_to_data (data_to_regstring (.SZ "a\n") true) ≠ .ok (some (.SZ "a\n")) ∧
    regstring_to_data (data_to_regstring (.MULTI_SZ ["x"]) true) ≠
      .ok (some (.MULTI_SZ ["x"])) :=
  ⟨(claim1_theorem.1 [222, 173] (by decide) (by decide)).1,
   claim1_theorem.2.1 "a" (by decide) (by decide),
   claim1_theorem.2.2.1 305419896 (by decide) (by decide),
   claim1_theorem.2.2.2.1 26 (by decide),
   claim1_theorem.2.2.2.2.2.2.2.1 "a\n" ⟨'\n', by decide, by decide⟩,
   claim1_theorem.2.2.2.2.2.2.2.2.2.2.2.1 ["x"]⟩

/-! ### Claim C2 -/

/-- C2 counterexample: strict formatting is not uniform — `SZ` has no strict
branch and is rendered quoted, not as `hex(1):` over its binary encoding. -/
theorem claim2_counterexample :
    data_to_regstring (.SZ "a") true = "\"a\"".data ∧
    data_to_regstring (.SZ "a") true ≠
      "hex(1):".data ++ bytes_to_hex (Data.raw (.SZ "a")) := by
  exact ⟨rfl, by decide⟩

/-- C2 (amended): in strict mode only `EXPAND_SZ` (tag 2), `MULTI_SZ` (7) and
`QWORD` (11 hex) are rendered as `hex(<tag>):` over their exact binary
encoding; `NONE` (0), `LINK` (6), the resource variants (8, 9, a) and the
untagged `BINARY` render that way in both modes; `SZ` stays quoted and
`DWORD` stays `dword:<hex>` even when strict; `DWORD_BIG_ENDIAN` renders as
`hex(5): ` with a spurious space over the value's little-endian bytes, not
its big-endian raw encoding.  The `QWORD 255` example of the claim holds. -/
theorem claim2_theorem :
    (∀ b, data_to_regstring (.NONE b) true = "hex(0):".data ++ bytes_to_hex b) ∧
    (∀ b, data_to_regstring (.LINK b) true = "hex(6):".data ++ bytes_to_hex b) ∧
    (∀ b, data_to_regstring (.RESOURCE_LIST b) true = "hex(8):".data ++ bytes_to_hex b) ∧
    (∀ b, data_to_regstring (.FULL_RESOURCE_DESCRIPTOR b) true =
        "hex(9):".data ++ bytes_to_hex b) ∧
    (∀ b, data_to_regstring (.RESOURCE_REQUIREMENTS_LIST b) true =
        "hex(a):".data ++ bytes_to_hex b) ∧
    (∀ b, data_to_regstring (.BINARY b) true = "hex:".data ++ bytes_to_hex b) ∧
    (∀ d, data_to_regstring (.EXPAND_SZ d) true =
        "hex(2):".data ++ bytes_to_hex (Data.raw (.EXPAND_SZ d))) ∧
    (∀ d, data_to_regstring (.MULTI_SZ d) true =
        "hex(7):".data ++ bytes_to_hex (Data.raw (.MULTI_SZ d))) ∧
    (∀ v, data_to_regstring (.QWORD v) true =
        "hex(11):".data ++ bytes_to_hex (Data.raw (.QWORD v))) ∧
    (∀ d, data_to_regstring (.SZ d) true = '"' :: d.data ++ ['"']) ∧
    (∀ v, data_to_regstring (.DWORD v) true = "dword:".data ++ hexRep v) ∧
    (∀ v, data_to_regstring (.DWORD_BIG_ENDIAN v) true =
        "hex(5): ".data ++ bytes_to_hex (u32le v)) ∧
    data_to_regstring (.QWORD 255) true = "hex(11):ff,00,00,00,00,00,00,00".data ∧
    data_to_regstring (.DWORD_BIG_ENDIAN 1) true ≠
      "hex(5):".data ++ bytes_to_hex (Data.raw (.DWORD_BIG_ENDIAN 1)) := by
  refine ⟨fun b => rfl, fun b => rfl, fun b => rfl, fun b => rfl, fun b => rfl,
    fun b => rfl, fun d => rfl, fun d => rfl, fun v => rfl, fun d => rfl,
    fun v => rfl, fun v => rfl, rfl, by decide⟩

/-! ### Claim C5 -/

/-- C5: evaluation of the decoder at inputs falsifying the claimed tag
dispatch and no-throw tolerance.  `hex(4):…` should dispatch to `Dword` but
returns `undefined` (the tag class `[0-0a-fA-F]` omits the digits 1-9);
`hex(1):…` should be `String` but returns `undefined`; the two-quote string
`""` throws a `TypeError` (group 1 captures the falsy empty string and the
code falls through to `m[5].split` on `undefined`); `hex(0):ff` reaches the
`NONE` result only through the `NaN` `default` arm, the switch being dead. -/
theorem claim5_theorem :
    regstring_to_data "hex(4):0a,00,00,00".data = .ok none ∧
    regstring_to_data "hex(1):61,00".data = .ok none ∧
    regstring_to_data "\"\"".data = .error .typeError ∧
    regstring_to_data "hex(0):ff".data = .ok (some (.NONE [255])) :=
  ⟨rfl, rfl, rfl, rfl⟩

/-! ### Store lemmas -/

theorem alookup_updEntries {α : Type} (l : List (Nat × α)) (n m : Nat) (f : α → α) :
    alookup (updEntries n f l) m =
      if m = n then (alookup l n).map f else alookup l m := by
  induction l with
  | nil => by_cases h : m = n <;> simp [updEntries, alookup, h]
  | cons e rest ih =>
    obtain ⟨k, v⟩ := e
    by_cases hkn : k = n
    · subst hkn
      by_cases hmk : m = k
      · subst hmk
        simp [updEntries, alookup]
      · have hkm : ¬ k = m := fun h => hmk h.symm
        simp [updEntries, alookup, hmk, hkm, ih]
    · have hnk : ¬ n = k := fun h => hkn h.symm
      by_cases hkm : k = m
      · subst hkm
        have hmn : ¬ k = n := hkn
        simp [updEntries, alookup, hkn, hmn]
      · by_cases hmn : m = n
        · subst hmn
          simp [updEntries, alookup, hkn, hkm, ih]
        · simp [updEntries, alookup, hkn, hkm, hmn, ih]

theorem updEntries_length {α : Type} (n : Nat) (f : α → α) (l : List (Nat × α)) :
    (updEntries n f l).length = l.length := by
  induction l with
  | nil => rfl
  | cons e rest ih =>
    obtain ⟨k, v⟩ := e
    by_cases h : k = n <;> simp [updEntries, h, ih]

theorem alookup_append {κ α : Type} [DecidableEq κ] (l1 l2 : List (κ × α)) (k : κ) :
    alookup (l1 ++ l2) k =
      match alookup l1 k with
      | some v => some v
      | none => alookup l2 k := by
  induction l1 with
  | nil => simp [alookup]
  | cons e rest ih =>
    obtain ⟨k1, v1⟩ := e
    by_cases h : k1 = k <;> simp [alookup, h, ih]

theorem lookupNode_updateNode (st : Store) (n : NodeId) (f : KeyImp → KeyImp)
    (m : NodeId) :
    lookupNode (updateNode st n f) m =
      if m = n then (lookupNode st n).map f else lookupNode st m :=
  alookup_updEntries st.nodes n m f

theorem lookupNode_updateNode_self (st : Store) (n : NodeId) (f : KeyImp → KeyImp) :
    lookupNode (updateNode st n f) n = (lookupNode st n).map f := by
  rw [lookupNode_updateNode, if_pos rfl]

theorem lookupNode_updateNode_ne (st : Store) (n : NodeId) (f : KeyImp → KeyImp)
    (m : NodeId) (h : m ≠ n) :
    lookupNode (updateNode st n f) m = lookupNode st m := by
  rw [lookupNode_updateNode, if_neg h]

theorem updateNode_queryCount (st : Store) (n : NodeId) (f : KeyImp → KeyImp) :
    (updateNode st n f).queryCount = st.queryCount := rfl

theorem updateNode_nodes_length (st : Store) (n : NodeId) (f : KeyImp → KeyImp) :
    (updateNode st n f).nodes.length = st.nodes.length :=
  updEntries_length n f st.nodes

theorem add_found_key_lookup_isSome (st : Store) (n : NodeId) (key : String)
    (m : NodeId) (h : (lookupNode st m).isSome) :
    (lookupNode (add_found_key st n key) m).isSome := by
  obtain ⟨x, hx⟩ := Option.isSome_iff_exists.mp h
  cases hn : lookupNode st n with
  | none => simp [add_found_key, hn, hx]
  | some k =>
    by_cases hc : key ≠ "" ∧ key ≠ k.name
    · cases ha : alookup k.keys key with
      | some c =>
        simp only [add_found_key, hn, ha, if_pos hc]
        rw [lookupNode_updateNode]
        by_cases hm : m = c
        · subst hm; simp [hx]
        · simp [hm, hx]
      | none =>
        simp only [add_found_key, hn, ha, if_pos hc]
        rw [lookupNode_updateNode]
        have happ : lookupNode {st with
            nodes := st.nodes ++ [(st.nextId, ⟨key, some n, [], none, true⟩)],
            nextId := st.nextId + 1} m = some x := by
          show alookup (st.nodes ++ [(st.nextId, ⟨key, some n, [], none, true⟩)]) m
            = some x
          rw [alookup_append, show alookup st.nodes m = some x from hx]
        by_cases hm : m = n
        · subst hm; simp [happ]
        · simp [hm, happ]
    · simp [add_found_key, hn, if_neg hc, hx]

theorem add_found_key_queryCount (st : Store) (n : NodeId) (key : String) :
    (add_found_key st n key).queryCount = st.queryCount := by
  cases hn : lookupNode st n with
  | none => simp [add_found_key, hn]
  | some k =>
    by_cases hc : key ≠ "" ∧ key ≠ k.name
    · cases ha : alookup k.keys key with
      | some c => simp [add_found_key, hn, ha, if_pos hc, updateNode]
      | none => simp [add_found_key, hn, ha, if_pos hc, updateNode]
    · simp [add_found_key, hn, if_neg hc]

theorem afk_fold_lookup_isSome (keys : List String) (st : Store) (n m : NodeId)
    (h : (lookupNode st m).isSome) :
    (lookupNode (keys.foldl (fun s key => add_found_key s n key) st) m).isSome := by
  induction keys generalizing st with
  | nil => exact h
  | cons key rest ih =>
    exact ih (add_found_key st n key) (add_found_key_lookup_isSome st n key m h)

theorem afk_fold_queryCount (keys : List String) (st : Store) (n : NodeId) :
    (keys.foldl (fun s key => add_found_key s n key) st).queryCount = st.queryCount := by
  induction keys generalizing st with
  | nil => rfl
  | cons key rest ih =>
    rw [List.foldl_cons, ih, add_found_key_queryCount]

theorem markFoundAux_lookup_isSome (fuel : Nat) (st : Store) (n m : NodeId)
    (h : (lookupNode st m).isSome) :
    (lookupNode (markFoundAux fuel st n) m).isSome := by
  induction fuel generalizing st n with
  | zero => exact h
  | succ fuel ih =>
    show (lookupNode (match lookupNode st n with
      | none => st
      | some k =>
        if k.found then st
        else match k.parent with
          | none => st
          | some p =>
            markFoundAux fuel (updateNode st n (fun x => {x with found := true})) p) m).isSome
    cases hn : lookupNode st n with
    | none => exact h
    | some k =>
      by_cases hf : k.found
      · simpa [hf] using h
      · simp only [hf, Bool.false_eq_true, if_false]
        cases hp : k.parent with
        | none => exact h
        | some p =>
          refine ih _ p ?_
          rw [lookupNode_updateNode]
          by_cases hm : m = n
          · subst hm; simp [hn]
          · simpa [hm] using h

theorem markFoundAux_queryCount (fuel : Nat) (st : Store) (n : NodeId) :
    (markFoundAux fuel st n).queryCount = st.queryCount := by
  induction fuel generalizing st n with
  | zero => rfl
  | succ fuel ih =>
    show (match lookupNode st n with
      | none => st
      | some k =>
        if k.found then st
        else match k.parent with
          | none => st
          | some p =>
            markFoundAux fuel (updateNode st n (fun x => {x with found := true})) p).queryCount
        = st.queryCount
    cases hn : lookupNode st n with
    | none => rfl
    | some k =>
      by_cases hf : k.found
      · simp [hf]
      · simp only [hf, Bool.false_eq_true, if_false]
        cases hp : k.parent with
        | none => rfl
        | some p => rw [ih, updateNode_queryCount]

theorem reread_items (st : Store) (n : NodeId) (oc : Except RegError QueryOut)
    (h : (lookupNode st n).isSome) :
    itemsOf (reread st n oc).1 n = some (reread st n oc).2 ∧
    (reread st n oc).1.queryCount = st.queryCount + 1 := by
  cases oc with
  | error e =>
    constructor
    · show itemsOf (updateNode (bumpQuery st) n _) n = _
      unfold itemsOf
      rw [lookupNode_updateNode]
      simp only [if_pos rfl]
      cases hl : lookupNode (bumpQuery st) n with
      | none => exact absurd h (by simpa using congrArg Option.isSome hl)
      | some k => simp [hl]; rfl
    · rfl
  | ok q =>
    have h0 : (lookupNode (bumpQuery st) n).isSome = (lookupNode st n).isSome := rfl
    have h1 := afk_fold_lookup_isSome q.subkeys (bumpQuery st) n n (by rw [h0]; exact h)
    have h2 := markFoundAux_lookup_isSome
      ((q.subkeys.foldl (fun s key => add_found_key s n key)
        (bumpQuery st)).nodes.length + 1) _ n n h1
    constructor
    · show itemsOf (updateNode (markFound (q.subkeys.foldl (fun s key =>
          add_found_key s n key) (bumpQuery st)) n) n _) n = _
      unfold itemsOf
      rw [lookupNode_updateNode]
      simp only [if_pos rfl]
      cases hl : lookupNode (markFound (q.subkeys.foldl (fun s key =>
          add_found_key s n key) (bumpQuery st)) n) n with
      | none =>
        rw [markFound] at hl
        rw [hl] at h2
        simp at h2
      | some k => simp [hl]; rfl
    · show (updateNode (markFound (q.subkeys.foldl (fun s key =>
          add_found_key s n key) (bumpQuery st)) n) n _).queryCount = _
      rw [updateNode_queryCount, markFound, markFoundAux_queryCount,
        afk_fold_queryCount]
      rfl

/-! ### Claim C4 -/

/-- C4: single-flight memoized read.  If a memoized (possibly in-flight)
value-set promise exists, `read` returns exactly that promise with the
state (hence the QUERY count) unchanged; consequently a second
`readValues()` after a first one that had to re-read shares the first
read's promise, with exactly one QUERY issued in total. -/
theorem claim4_theorem :
    (∀ st n p oc, itemsOf st n = some p → read st n oc = (st, p)) ∧
    (∀ st n k oc oc2, lookupNode st n = some k → k.items = none →
        read (read st n oc).1 n oc2 = ((read st n oc).1, (read st n oc).2) ∧
        (read (read st n oc).1 n oc2).1.queryCount = st.queryCount + 1) := by
  constructor
  · intro st n p oc h
    simp [read, h]
  · intro st n k oc oc2 hn hitems
    have hnone : itemsOf st n = none := by simp [itemsOf, hn, hitems]
    have hread1 : read st n oc = reread st n oc := by simp [read, hnone]
    obtain ⟨hmem, hq⟩ := reread_items st n oc (by simp [hn])
    have hread2 : read (reread st n oc).1 n oc2 = ((reread st n oc).1, (reread st n oc).2) := by
      simp [read, hmem]
    rw [hread1]
    exact ⟨hread2, by rw [hread2]; exact hq⟩

/-- Witness for C4 at a concrete store: a root with one unread node. -/
theorem claim4_witness :
    read (read ⟨[(0, ⟨"", none, [], none, false⟩)], 1, [], [("", 0)], 0, 0⟩
        0 (.ok ⟨[], []⟩)).1 0 (.ok ⟨[], []⟩) =
      ((read ⟨[(0, ⟨"", none, [], none, false⟩)], 1, [], [("", 0)], 0, 0⟩
          0 (.ok ⟨[], []⟩)).1,
       (read ⟨[(0, ⟨"", none, [], none, false⟩)], 1, [], [("", 0)], 0, 0⟩
          0 (.ok ⟨[], []⟩)).2) ∧
    (read (read ⟨[(0, ⟨"", none, [], none, false⟩)], 1, [], [("", 0)], 0, 0⟩
        0 (.ok ⟨[], []⟩)).1 0 (.ok ⟨[], []⟩)).1.queryCount = 1 :=
  claim4_theorem.2 ⟨[(0, ⟨"", none, [], none, false⟩)], 1, [], [("", 0)], 0, 0⟩
    0 ⟨"", none, [], none, false⟩ (.ok ⟨[], []⟩) (.ok ⟨[], []⟩) rfl rfl

/-! ### Claim C7 -/

theorem removeEntry_cons_self {α : Type} (k1 : String) (v1 : α)
    (rest : List (String × α)) (k : String) (h : k1 = k) :
    removeEntry ((k1, v1) :: rest) k = removeEntry rest k := by
  simp [removeEntry, List.filter_cons, h]

theorem removeEntry_cons_other {α : Type} (k1 : String) (v1 : α)
    (rest : List (String × α)) (k : String) (h : ¬ k1 = k) :
    removeEntry ((k1, v1) :: rest) k = (k1, v1) :: removeEntry rest k := by
  simp [removeEntry, List.filter_cons, h]

theorem alookup_removeEntry_self {α : Type} (m : List (String × α)) (k : String) :
    alookup (removeEntry m k) k = none := by
  induction m with
  | nil => rfl
  | cons e rest ih =>
    obtain ⟨k1, v1⟩ := e
    by_cases h : k1 = k
    · rw [removeEntry_cons_self k1 v1 rest k h, ih]
    · rw [removeEntry_cons_other k1 v1 rest k h]
      show (if k1 = k then some v1 else alookup (removeEntry rest k) k) = none
      rw [if_neg h, ih]

theorem alookup_removeEntry_other {α : Type} (m : List (String × α)) (k nm : String)
    (h : nm ≠ k) : alookup (removeEntry m k) nm = alookup m nm := by
  induction m with
  | nil => rfl
  | cons e rest ih =>
    obtain ⟨k1, v1⟩ := e
    by_cases h1 : k1 = k
    · have hk1nm : ¬ k1 = nm := by rw [h1]; exact fun hc => h hc.symm
      rw [removeEntry_cons_self k1 v1 rest k h1, ih]
      show alookup rest nm = if k1 = nm then some v1 else alookup rest nm
      rw [if_neg hk1nm]
    · rw [removeEntry_cons_other k1 v1 rest k h1]
      show (if k1 = nm then some v1 else alookup (removeEntry rest k) nm) =
        if k1 = nm then some v1 else alookup rest nm
      rw [ih]

theorem mem_removeEntry {α : Type} (m : List (String × α)) (k : String)
    (e : String × α) : e ∈ removeEntry m k ↔ e ∈ m ∧ e.1 ≠ k := by
  simp [removeEntry, List.mem_filter]

/-- C7: `destroy()` atomicity on the cache.  For an attached non-root node,
external success removes exactly this node's entry (its name) from the
parent's child map and resolves `true`, leaving every other node — in
particular this node's own children and memoized value set — unchanged;
external failure changes nothing and resolves `false`. -/
theorem claim7_theorem :
    ∀ st n k p kp, lookupNode st n = some k → k.parent = some p →
      lookupNode st p = some kp → n ≠ p →
      (destroy st n (.ok ())).2 = .ok true ∧
      lookupNode (destroy st n (.ok ())).1 p =
        some {kp with keys := removeEntry kp.keys k.name} ∧
      alookup (removeEntry kp.keys k.name) k.name = none ∧
      (∀ nm, nm ≠ k.name →
        alookup (removeEntry kp.keys k.name) nm = alookup kp.keys nm) ∧
      (∀ m, m ≠ p → lookupNode (destroy st n (.ok ())).1 m = lookupNode st m) ∧
      (∀ e : RegError, destroy st n (.error e) = (st, .ok false)) := by
  intro st n k p kp hn hpar hp hnp
  have hd : destroy st n (.ok ()) =
      (updateNode st p (fun pk => {pk with keys := removeEntry pk.keys k.name}),
       .ok true) := by
    simp [destroy, hn, hpar]
  refine ⟨by rw [hd], ?_, alookup_removeEntry_self kp.keys k.name,
    fun nm hnm => alookup_removeEntry_other kp.keys k.name nm hnm, ?_, fun e => rfl⟩
  · rw [hd]
    show lookupNode (updateNode st p _) p = _
    rw [lookupNode_updateNode]
    simp [hp]
  · intro m hm
    rw [hd]
    show lookupNode (updateNode st p _) m = _
    rw [lookupNode_updateNode]
    simp [hm]

/-- Witness for C7: a root with one attached child, destroying the child. -/
theorem claim7_witness :
    (destroy ⟨[(0, ⟨"", none, [("a", 1)], none, false⟩),
        (1, ⟨"a", some 0, [], none, false⟩)], 2, [], [("", 0)], 0, 0⟩
      1 (.ok ())).2 = .ok true ∧
    lookupNode (destroy ⟨[(0, ⟨"", none, [("a", 1)], none, false⟩),
        (1, ⟨"a", some 0, [], none, false⟩)], 2, [], [("", 0)], 0, 0⟩
      1 (.ok ())).1 0 = some ⟨"", none, [], none, false⟩ := by
  have h := claim7_theorem
    ⟨[(0, ⟨"", none, [("a", 1)], none, false⟩),
      (1, ⟨"a", some 0, [], none, false⟩)], 2, [], [("", 0)], 0, 0⟩
    1 ⟨"a", some 0, [], none, false⟩ 0 ⟨"", none, [("a", 1)], none, false⟩
    rfl rfl rfl (by decide)
  exact ⟨h.1, by rw [h.2.1]; rfl⟩

/-! ### Claim C8 -/

/-- C8 counterexample: with a rejected memoized value-set promise,
`deleteValue` on external success re-raises the memoized rejection instead
of resolving to a boolean (`this._items.then(...)` propagates it). -/
theorem claim8_counterexample :
    (deleteValue ⟨[(0, ⟨"", none, [],
        some ⟨0, .error ⟨"boom", 1⟩⟩, false⟩)], 1, [], [("", 0)], 1, 1⟩
      0 "k" (.ok ())).2 = .error ⟨"boom", 1⟩ ∧
    ∀ b : Bool, (deleteValue ⟨[(0, ⟨"", none, [],
        some ⟨0, .error ⟨"boom", 1⟩⟩, false⟩)], 1, [], [("", 0)], 1, 1⟩
      0 "k" (.ok ())).2 ≠ .ok b := by
  refine ⟨rfl, fun b h => ?_⟩
  rw [show (deleteValue ⟨[(0, ⟨"", none, [],
      some ⟨0, .error ⟨"boom", 1⟩⟩, false⟩)], 1, [], [("", 0)], 1, 1⟩
      0 "k" (.ok ())).2 = .error ⟨"boom", 1⟩ from rfl] at h
  exact Except.noConfusion h

/-- C8 (amended): `clear` and `destroy` always collapse to a boolean
(`true` iff the external command succeeded); `setValue` and `deleteValue`
collapse to a boolean except in one case — external success while the
memoized value-set promise is rejected — where they re-raise that memoized
rejection instead. -/
theorem claim8_theorem :
    (∀ st n oc, (clear st n oc).2 = .ok (okBool oc)) ∧
    (∀ st n oc, (destroy st n oc).2 = .ok (okBool oc)) ∧
    (∀ st n key oc, okBool oc = false → (deleteValue st n key oc).2 = .ok false) ∧
    (∀ st n key v oc, okBool oc = false → (setValue st n key v oc).2 = .ok false) ∧
    (∀ st n key oc, (∀ pr, itemsOf st n = some pr → okBool pr.result = true) →
        (deleteValue st n key oc).2 = .ok (okBool oc)) ∧
    (∀ st n key v oc, (∀ pr, itemsOf st n = some pr → okBool pr.result = true) →
        (setValue st n key v oc).2 = .ok (okBool oc)) ∧
    (∀ st n key pr err, itemsOf st n = some pr → pr.result = .error err →
        (deleteValue st n key (.ok ())).2 = .error err) ∧
    (∀ st n key v pr err, itemsOf st n = some pr → pr.result = .error err →
        (setValue st n key v (.ok ())).2 = .error err) := by
  refine ⟨fun st n oc => rfl, ?_, ?_, ?_, ?_, ?_, ?_, ?_⟩
  · intro st n oc
    cases oc with
    | error e => rfl
    | ok u =>
      cases hn : lookupNode st n with
      | none => simp [destroy, hn, okBool]
      | some k =>
        cases hp : k.parent with
        | none => simp [destroy, hn, hp, okBool]
        | some p => simp [destroy, hn, hp, okBool]
  · intro st n key oc hoc
    cases oc with
    | error e => rfl
    | ok u => simp [okBool] at hoc
  · intro st n key v oc hoc
    cases oc with
    | error e => rfl
    | ok u => simp [okBool] at hoc
  · intro st n key oc hok
    cases oc with
    | error e => rfl
    | ok u =>
      cases hi : itemsOf st n with
      | none => simp [deleteValue, hi, okBool]
      | some pr =>
        have := hok pr hi
        cases hr : pr.result with
        | error e => rw [hr] at this; simp [okBool] at this
        | ok m => simp [deleteValue, hi, hr, okBool]
  · intro st n key v oc hok
    cases oc with
    | error e => rfl
    | ok u =>
      cases hi : itemsOf st n with
      | none => simp [setValue, hi, okBool]
      | some pr =>
        have := hok pr hi
        cases hr : pr.result with
        | error e => rw [hr] at this; simp [okBool] at this
        | ok m => simp [setValue, hi, hr, okBool]
  · intro st n key pr err hi hr
    simp [deleteValue, hi, hr]
  · intro st n key v pr err hi hr
    simp [setValue, hi, hr]

/-- Witness for C8 at concrete stores: a fulfilled memoized set and a
rejected one. -/
theorem claim8_witness :
    (deleteValue ⟨[(0, ⟨"", none, [], some ⟨0, .ok [("k", .DWORD 1)]⟩, false⟩)],
        1, [], [("", 0)], 1, 1⟩ 0 "k" (.ok ())).2 = .ok true ∧
    (setValue ⟨[(0, ⟨"", none, [], some ⟨0, .error ⟨"boom", 1⟩⟩, false⟩)],
        1, [], [("", 0)], 1, 1⟩ 0 "k" (.DWORD 1) (.ok ())).2 = .error ⟨"boom", 1⟩ := by
  constructor
  · refine claim8_theorem.2.2.2.2.1
      ⟨[(0, ⟨"", none, [], some ⟨0, .ok [("k", .DWORD 1)]⟩, false⟩)],
        1, [], [("", 0)], 1, 1⟩ 0 "k" (.ok ()) ?_
    intro pr hpr
    have h3 : itemsOf ⟨[(0, ⟨"", none, [], some ⟨0, .ok [("k", .DWORD 1)]⟩, false⟩)],
        1, [], [("", 0)], 1, 1⟩ 0 = some ⟨0, .ok [("k", .DWORD 1)]⟩ := rfl
    rw [h3] at hpr
    rw [(Option.some.inj hpr).symm]
    rfl
  · exact claim8_theorem.2.2.2.2.2.2.2
      ⟨[(0, ⟨"", none, [], some ⟨0, .error ⟨"boom", 1⟩⟩, false⟩)],
        1, [], [("", 0)], 1, 1⟩ 0 "k" (.DWORD 1) ⟨0, .error ⟨"boom", 1⟩⟩
      ⟨"boom", 1⟩ rfl rfl

/-! ### Claim C3 -/

theorem chainOf_ne_nil (st : Store) (cf : Nat) (n : NodeId) (ch : List NodeId)
    (h : chainOf st cf n = some ch) : ch ≠ [] := by
  cases cf with
  | zero => simp [chainOf] at h
  | succ cf =>
    simp only [chainOf] at h
    cases hn : lookupNode st n with
    | none => simp only [hn] at h; simp at h
    | some k =>
      simp only [hn] at h
      cases hp : k.parent with
      | none =>
        simp only [hp] at h
        intro hnil
        rw [hnil] at h
        simp at h
      | some p =>
        simp only [hp] at h
        cases hc : chainOf st cf p with
        | none => simp only [hc] at h; simp at h
        | some ch2 =>
          simp only [hc] at h
          intro hnil
          rw [hnil] at h
          simp at h

theorem mem_of_mem_dropLast {α : Type} (l : List α) (x : α)
    (h : x ∈ l.dropLast) : x ∈ l := by
  induction l with
  | nil => simp at h
  | cons a rest ih =>
    cases rest with
    | nil => simp at h
    | cons b t =>
      rw [List.dropLast_cons₂] at h
      rcases List.mem_cons.mp h with rfl | h2
      · exact List.mem_cons_self _ _
      · exact List.mem_cons_of_mem _ (ih h2)

theorem getLast?_not_mem_dropLast {α : Type} (l : List α) (r : α)
    (h : l.getLast? = some r) (hd : l.Nodup) : r ∉ l.dropLast := by
  have happ : l.dropLast ++ [r] = l :=
    List.dropLast_append_getLast? r (Option.mem_def.mpr h)
  intro hmem
  rw [← happ] at hd
  obtain ⟨-, -, hdisj⟩ := List.nodup_append.mp hd
  exact hdisj hmem (List.mem_singleton_self r)

theorem chainOf_updateNode_found (st : Store) (x : NodeId) :
    ∀ (cf : Nat) (m : NodeId),
      chainOf (updateNode st x (fun k => {k with found := true})) cf m =
        chainOf st cf m := by
  intro cf
  induction cf with
  | zero => intro m; rfl
  | succ cf ih =>
    intro m
    simp only [chainOf]
    by_cases hm : m = x
    · subst hm
      rw [lookupNode_updateNode_self]
      cases hx : lookupNode st m with
      | none => rfl
      | some k =>
        obtain ⟨nm, par, ks, it, fd⟩ := k
        cases par with
        | none => rfl
        | some p =>
          show Option.map (fun ch => m :: ch)
              (chainOf (updateNode st m (fun k => {k with found := true})) cf p) =
            Option.map (fun ch => m :: ch) (chainOf st cf p)
          rw [ih p]
    · rw [lookupNode_updateNode_ne st x _ m hm]
      cases hx : lookupNode st m with
      | none => rfl
      | some k =>
        obtain ⟨nm, par, ks, it, fd⟩ := k
        cases par with
        | none => rfl
        | some p =>
          show Option.map (fun ch => m :: ch)
              (chainOf (updateNode st x (fun k => {k with found := true})) cf p) =
            Option.map (fun ch => m :: ch) (chainOf st cf p)
          rw [ih p]

theorem foundOf_updateNode_found_ne (st : Store) (x m : NodeId) (h : m ≠ x) :
    foundOf (updateNode st x (fun k => {k with found := true})) m = foundOf st m := by
  unfold foundOf
  rw [lookupNode_updateNode, if_neg h]

/-- The marking loop on a fresh (nowhere-found) ancestor chain: every
chain node strictly before the parentless root becomes found, and no node
outside that prefix — the root included — is touched at all. -/
theorem markFoundAux_chain :
    ∀ (ch : List NodeId) (st : Store) (n : NodeId) (cf fuel : Nat),
      chainOf st cf n = some ch → ch.Nodup →
      (∀ a ∈ ch, foundOf st a = some false) →
      ch.length ≤ fuel →
      (∀ a ∈ ch.dropLast, foundOf (markFoundAux fuel st n) a = some true) ∧
      (∀ m, m ∉ ch.dropLast →
        lookupNode (markFoundAux fuel st n) m = lookupNode st m) := by
  intro ch
  induction ch with
  | nil =>
    intro st n cf fuel hch _ _ _
    exact absurd rfl (chainOf_ne_nil st cf n [] hch)
  | cons a rest ih =>
    intro st n cf fuel hch hnodup hfalse hfuel
    cases cf with
    | zero => simp [chainOf] at hch
    | succ cf =>
      simp only [chainOf] at hch
      cases hn : lookupNode st n with
      | none => simp only [hn] at hch; exact absurd hch (by simp)
      | some k =>
        simp only [hn] at hch
        have hkf : k.found = false := by
          have ha : a = n := by
            cases hp : k.parent with
            | none => simp only [hp] at hch; simp at hch; exact hch.1.symm
            | some p =>
              simp only [hp] at hch
              cases hc : chainOf st cf p with
              | none => simp only [hc] at hch; simp at hch
              | some ch2 => simp only [hc] at hch; simp at hch; exact hch.1.symm
          have hfa := hfalse a (by simp)
          rw [ha] at hfa
          simp [foundOf, hn] at hfa
          exact hfa
        cases hp : k.parent with
        | none =>
          simp only [hp] at hch
          simp at hch
          obtain ⟨han, hrest⟩ := hch
          have hr0 : rest = [] := hrest
          subst hr0
          cases fuel with
          | zero => simp at hfuel
          | succ f =>
            have hmk : markFoundAux (f + 1) st n = st := by
              simp [markFoundAux, hn, hkf, hp]
            rw [hmk]
            exact ⟨fun x hx => by simp at hx, fun m _ => rfl⟩
        | some p =>
          simp only [hp] at hch
          cases hc : chainOf st cf p with
          | none => simp only [hc] at hch; simp at hch
          | some ch2 =>
            simp only [hc] at hch
            simp at hch
            obtain ⟨han, hrest⟩ := hch
            have han2 : a = n := by first | exact han | exact han.symm
            have hc2 : chainOf st cf p = some rest := by
              rw [hc]
              simp [hrest]
            rw [han2] at hnodup hfalse hfuel ⊢
            cases fuel with
            | zero => simp at hfuel
            | succ f =>
              have hstep : markFoundAux (f + 1) st n =
                  markFoundAux f (updateNode st n (fun x => {x with found := true})) p := by
                simp [markFoundAux, hn, hkf, hp]
              have hnodup2 := List.nodup_cons.mp hnodup
              have hnin : n ∉ rest := hnodup2.1
              have hch1 : chainOf (updateNode st n (fun x => {x with found := true})) cf p
                  = some rest := by
                rw [chainOf_updateNode_found]
                exact hc2
              have hfalse1 : ∀ b ∈ rest,
                  foundOf (updateNode st n (fun x => {x with found := true})) b
                    = some false := by
                intro b hb
                have hbn : b ≠ n := fun hbe => hnin (hbe ▸ hb)
                rw [foundOf_updateNode_found_ne st n b hbn]
                exact hfalse b (List.mem_cons_of_mem _ hb)
              have hfuel1 : rest.length ≤ f := by
                simp at hfuel
                omega
              obtain ⟨ih1, ih2⟩ := ih (updateNode st n (fun x => {x with found := true}))
                p cf f hch1 hnodup2.2 hfalse1 hfuel1
              have hrne : rest ≠ [] := chainOf_ne_nil st cf p rest hc2
              have hdrop : (n :: rest).dropLast = n :: rest.dropLast := by
                cases rest with
                | nil => exact absurd rfl hrne
                | cons b t => rw [List.dropLast_cons₂]
              constructor
              · intro x hx
                rw [hdrop] at hx
                rw [hstep]
                rcases List.mem_cons.mp hx with rfl | hx2
                · have hnind : x ∉ rest.dropLast := fun hmem =>
                    hnin (mem_of_mem_dropLast rest x hmem)
                  rw [show foundOf (markFoundAux f
                      (updateNode st x (fun y => {y with found := true})) p) x =
                      (lookupNode (markFoundAux f
                        (updateNode st x (fun y => {y with found := true})) p) x).map
                        (fun k => k.found) from rfl]
                  rw [ih2 x hnind, lookupNode_updateNode_self, hn]
                  obtain ⟨nm, par, ks, it, fd⟩ := k
                  rfl
                · exact ih1 x hx2
              · intro m hm
                rw [hdrop] at hm
                have hmn : m ≠ n := fun he => hm (he ▸ List.mem_cons_self _ _)
                have hmd : m ∉ rest.dropLast := fun he => hm (List.mem_cons_of_mem _ he)
                rw [hstep, ih2 m hmd, lookupNode_updateNode_ne st n _ m hmn]

theorem chainOf_bumpQuery (st : Store) :
    ∀ (cf : Nat) (m : NodeId), chainOf (bumpQuery st) cf m = chainOf st cf m := by
  intro cf
  induction cf with
  | zero => intro m; rfl
  | succ cf ih =>
    intro m
    simp only [chainOf]
    rw [show lookupNode (bumpQuery st) m = lookupNode st m from rfl]
    cases hx : lookupNode st m with
    | none => rfl
    | some k =>
      obtain ⟨nm, par, ks, it, fd⟩ := k
      cases par with
      | none => rfl
      | some p =>
        show Option.map (fun ch => m :: ch) (chainOf (bumpQuery st) cf p) =
          Option.map (fun ch => m :: ch) (chainOf st cf p)
        rw [ih p]

theorem foundOf_updateNode_items (st : Store) (n : NodeId) (pr : Prom) (m : NodeId) :
    foundOf (updateNode st n (fun k => {k with items := some pr})) m = foundOf st m := by
  unfold foundOf
  by_cases hm : m = n
  · subst hm
    rw [lookupNode_updateNode_self]
    cases hx : lookupNode st m with
    | none => rfl
    | some k =>
      obtain ⟨nm, par, ks, it, fd⟩ := k
      rfl
  · rw [lookupNode_updateNode_ne st n _ m hm]

/-- C3 counterexample: after a successful `reread` on the node
"HKEY_LOCAL_MACHINE" (a child of the host root), that node is confirmed but
its ancestor — the root — is not: the marking loop exits at the parentless
root without setting its flag, so confirmation does not reach "up to and
including its root" and the claimed invariant is violated in a reachable
state. -/
theorem claim3_counterexample :
    foundOf (reread ⟨[(0, ⟨"", none, [("HKEY_LOCAL_MACHINE", 1)], none, false⟩),
        (1, ⟨"HKEY_LOCAL_MACHINE", some 0, [], none, false⟩)], 2, [], [("", 0)], 0, 0⟩
      1 (.ok ⟨[], []⟩)).1 1 = some true ∧
    foundOf (reread ⟨[(0, ⟨"", none, [("HKEY_LOCAL_MACHINE", 1)], none, false⟩),
        (1, ⟨"HKEY_LOCAL_MACHINE", some 0, [], none, false⟩)], 2, [], [("", 0)], 0, 0⟩
      1 (.ok ⟨[], []⟩)).1 0 = some false := ⟨rfl, rfl⟩

/-- C3 (amended): after a successful `reread()` on a node none of whose
ancestor chain is yet confirmed, the node and every ancestor strictly below
the parentless root become confirmed, and the root itself stays
unconfirmed (the loop `for (p = this; !p.found && p.parent; p = p.parent)`
never marks the parentless root). -/
theorem claim3_theorem :
    ∀ (st : Store) (n : NodeId) (ch : List NodeId) (cf : Nat) (q : QueryOut),
      chainOf st cf n = some ch → ch.Nodup →
      (∀ a ∈ ch, foundOf st a = some false) →
      ch.length ≤ st.nodes.length + 1 →
      q.subkeys = [] →
      (∀ a ∈ ch.dropLast, foundOf (reread st n (.ok q)).1 a = some true) ∧
      (∀ r, ch.getLast? = some r →
        foundOf (reread st n (.ok q)).1 r = some false) := by
  intro st n ch cf q hch hnodup hfalse hlen hq
  have hr : (reread st n (Except.ok q)).1 =
      updateNode (markFound (bumpQuery st) n) n
        (fun k => {k with items := some ⟨st.nextProm, Except.ok q.items⟩}) := by
    show updateNode (markFound (q.subkeys.foldl (fun s key => add_found_key s n key)
        (bumpQuery st)) n) n
        (fun k => {k with items := some ⟨st.nextProm, Except.ok q.items⟩}) = _
    rw [hq]
    rfl
  have hch' : chainOf (bumpQuery st) cf n = some ch := by
    rw [chainOf_bumpQuery]
    exact hch
  have hfalse' : ∀ a ∈ ch, foundOf (bumpQuery st) a = some false := hfalse
  have hlen' : ch.length ≤ (bumpQuery st).nodes.length + 1 := hlen
  obtain ⟨h1, h2⟩ := markFoundAux_chain ch (bumpQuery st) n cf
    ((bumpQuery st).nodes.length + 1) hch' hnodup hfalse' hlen'
  constructor
  · intro a ha
    rw [hr, foundOf_updateNode_items]
    exact h1 a ha
  · intro r hrlast
    have hrmem : r ∈ ch := by
      have happ := List.dropLast_append_getLast? r (Option.mem_def.mpr hrlast)
      rw [← happ]
      exact List.mem_append_right _ (List.mem_singleton_self r)
    have hrnd : r ∉ ch.dropLast := getLast?_not_mem_dropLast ch r hrlast hnodup
    rw [hr, foundOf_updateNode_items]
    show (lookupNode (markFoundAux ((bumpQuery st).nodes.length + 1)
      (bumpQuery st) n) r).map (fun k => k.found) = some false
    rw [h2 r hrnd]
    exact hfalse r hrmem

/-- Witness for C3's amended theorem on a three-level concrete chain. -/
theorem claim3_witness :
    (∀ a ∈ ([2, 1, 0] : List NodeId).dropLast,
      foundOf (reread ⟨[(0, ⟨"", none, [("H", 1)], none, false⟩),
          (1, ⟨"H", some 0, [("S", 2)], none, false⟩),
          (2, ⟨"S", some 1, [], none, false⟩)], 3, [], [("", 0)], 0, 0⟩
        2 (.ok ⟨[], []⟩)).1 a = some true) ∧
    (∀ r, ([2, 1, 0] : List NodeId).getLast? = some r →
      foundOf (reread ⟨[(0, ⟨"", none, [("H", 1)], none, false⟩),
          (1, ⟨"H", some 0, [("S", 2)], none, false⟩),
          (2, ⟨"S", some 1, [], none, false⟩)], 3, [], [("", 0)], 0, 0⟩
        2 (.ok ⟨[], []⟩)).1 r = some false) :=
  claim3_theorem ⟨[(0, ⟨"", none, [("H", 1)], none, false⟩),
      (1, ⟨"H", some 0, [("S", 2)], none, false⟩),
      (2, ⟨"S", some 1, [], none, false⟩)], 3, [], [("", 0)], 0, 0⟩
    2 [2, 1, 0] 4 ⟨[], []⟩ rfl (by decide) (by decide) (by decide) rfl

/-! ### Claim C9 -/

theorem lookupNode_detach (st : Store) (x : NodeId) (nm : String) (j : NodeId) :
    lookupNode (updateNode st x (fun pk => {pk with keys := removeEntry pk.keys nm})) j
      = if j = x
        then (lookupNode st x).map (fun pk => {pk with keys := removeEntry pk.keys nm})
        else lookupNode st j :=
  lookupNode_updateNode st x _ j

theorem parentIdOf_detach (st : Store) (x : NodeId) (nm : String) (j : NodeId) :
    parentIdOf (updateNode st x (fun pk => {pk with keys := removeEntry pk.keys nm})) j
      = parentIdOf st j := by
  unfold parentIdOf
  rw [lookupNode_detach]
  by_cases hj : j = x
  · subst hj
    simp only [if_pos rfl]
    cases hx : lookupNode st j with
    | none => rfl
    | some k =>
      obtain ⟨knm, kpar, kks, kit, kfd⟩ := k
      rfl
  · rw [if_neg hj]

theorem dirtyNamesFor_detach (st : Store) (x : NodeId) (nm : String)
    (ds : List NodeId) (p : NodeId) :
    dirtyNamesFor (updateNode st x (fun pk => {pk with keys := removeEntry pk.keys nm}))
      ds p = dirtyNamesFor st ds p := by
  unfold dirtyNamesFor
  apply List.filterMap_congr
  intro i _
  rw [lookupNode_detach]
  by_cases hi : i = x
  · subst hi
    simp only [if_pos rfl]
    cases hx : lookupNode st i with
    | none => rfl
    | some k =>
      obtain ⟨knm, kpar, kks, kit, kfd⟩ := k
      rfl
  · rw [if_neg hi]

theorem dirtyNamesFor_cons_parent (st : Store) (ds : List NodeId) (i : NodeId)
    (k : KeyImp) (p : NodeId) (hk : lookupNode st i = some k)
    (hp : k.parent = some p) :
    dirtyNamesFor st (i :: ds) p = k.name :: dirtyNamesFor st ds p := by
  unfold dirtyNamesFor
  rw [List.filterMap_cons]
  simp only [hk]
  rw [if_pos hp]

theorem dirtyNamesFor_cons_other (st : Store) (ds : List NodeId) (i : NodeId)
    (k : KeyImp) (p : NodeId) (hk : lookupNode st i = some k)
    (hp : ¬ k.parent = some p) :
    dirtyNamesFor st (i :: ds) p = dirtyNamesFor st ds p := by
  unfold dirtyNamesFor
  rw [List.filterMap_cons]
  simp only [hk]
  rw [if_neg hp]

theorem mem_insertParent (ps : List NodeId) (p0 p : NodeId) :
    p ∈ (if p0 ∈ ps then ps else ps ++ [p0]) ↔ p ∈ ps ∨ p = p0 := by
  by_cases hin : p0 ∈ ps
  · rw [if_pos hin]
    constructor
    · exact fun h => Or.inl h
    · rintro (h | rfl)
      · exact h
      · exact hin
  · rw [if_neg hin]
    simp [List.mem_append]

theorem nodup_insertParent (ps : List NodeId) (p0 : NodeId) (h : ps.Nodup) :
    (if p0 ∈ ps then ps else ps ++ [p0]).Nodup := by
  by_cases hin : p0 ∈ ps
  · rwa [if_pos hin]
  · rw [if_neg hin]
    refine List.nodup_append.mpr ⟨h, List.nodup_singleton p0, ?_⟩
    intro a ha hb
    rw [List.mem_singleton.mp hb] at ha
    exact hin ha

/-- The full specification of the targeted-invalidation loop. -/
theorem detachLoop_spec :
    ∀ (ds : List NodeId) (st : Store) (ps : List NodeId),
      (∀ i ∈ ds, ∃ k, lookupNode st i = some k ∧ k.parent.isSome) →
      ps.Nodup →
      (detachLoop st ps ds).2.Nodup ∧
      (∀ p, p ∈ (detachLoop st ps ds).2 ↔
        p ∈ ps ∨ ∃ i ∈ ds, parentIdOf st i = some p) ∧
      (∀ m, (¬ ∃ i ∈ ds, parentIdOf st i = some m) →
        lookupNode (detachLoop st ps ds).1 m = lookupNode st m) ∧
      (∀ p kp, lookupNode st p = some kp →
        lookupNode (detachLoop st ps ds).1 p =
          some (filterKeys kp (dirtyNamesFor st ds p))) := by
  intro ds
  induction ds with
  | nil =>
    intro st ps _ hps
    refine ⟨hps, fun p => by simp [detachLoop], fun m _ => rfl, ?_⟩
    intro p kp hkp
    show lookupNode st p = _
    rw [hkp]
    unfold filterKeys
    have hf : kp.keys.filter (fun en => decide (en.1 ∉ dirtyNamesFor st [] p)) = kp.keys := by
      apply List.filter_eq_self.mpr
      intro e _
      simp [dirtyNamesFor]
    rw [hf]
  | cons i rest ih =>
    intro st ps hconn hps
    obtain ⟨k, hk, hkp⟩ := hconn i (List.mem_cons_self i rest)
    obtain ⟨p0, hp0⟩ := Option.isSome_iff_exists.mp hkp
    have hstep : detachLoop st ps (i :: rest) =
        detachLoop
          (updateNode st p0 (fun pk => {pk with keys := removeEntry pk.keys k.name}))
          (if p0 ∈ ps then ps else ps ++ [p0]) rest := by
      simp [detachLoop, hk, hp0]
    have hpari : parentIdOf st i = some p0 := by
      unfold parentIdOf
      rw [hk]
      exact hp0
    have hconn1 : ∀ j ∈ rest, ∃ k', lookupNode
        (updateNode st p0 (fun pk => {pk with keys := removeEntry pk.keys k.name})) j
          = some k' ∧ k'.parent.isSome := by
      intro j hj
      obtain ⟨kj, hkj, hkjp⟩ := hconn j (List.mem_cons_of_mem i hj)
      rw [lookupNode_detach]
      by_cases hjx : j = p0
      · subst hjx
        rw [if_pos rfl, hkj]
        exact ⟨{kj with keys := removeEntry kj.keys k.name}, rfl, hkjp⟩
      · rw [if_neg hjx]
        exact ⟨kj, hkj, hkjp⟩
    obtain ⟨ih1, ih2, ih3, ih4⟩ := ih
      (updateNode st p0 (fun pk => {pk with keys := removeEntry pk.keys k.name}))
      (if p0 ∈ ps then ps else ps ++ [p0]) hconn1 (nodup_insertParent ps p0 hps)
    refine ⟨by rw [hstep]; exact ih1, ?_, ?_, ?_⟩
    · intro p
      rw [hstep, ih2 p, mem_insertParent]
      simp only [parentIdOf_detach]
      constructor
      · rintro ((hp | rfl) | ⟨j, hj, hjp⟩)
        · exact Or.inl hp
        · exact Or.inr ⟨i, List.mem_cons_self i rest, hpari⟩
        · exact Or.inr ⟨j, List.mem_cons_of_mem i hj, hjp⟩
      · rintro (hp | ⟨j, hj, hjp⟩)
        · exact Or.inl (Or.inl hp)
        · rcases List.mem_cons.mp hj with rfl | hj2
          · rw [hpari] at hjp
            exact Or.inl (Or.inr (Option.some.inj hjp).symm)
          · exact Or.inr ⟨j, hj2, hjp⟩
    · intro m hm
      have hmne : ¬ m = p0 := by
        intro he
        exact hm ⟨i, List.mem_cons_self i rest, by rw [he]; exact hpari⟩
      have hm1 : ¬ ∃ j ∈ rest, parentIdOf
          (updateNode st p0 (fun pk => {pk with keys := removeEntry pk.keys k.name})) j
            = some m := by
        rintro ⟨j, hj, hjp⟩
        rw [parentIdOf_detach] at hjp
        exact hm ⟨j, List.mem_cons_of_mem i hj, hjp⟩
      rw [hstep, ih3 m hm1, lookupNode_detach, if_neg hmne]
    · intro p kp hkp
      by_cases hpp : p = p0
      · subst hpp
        have hkp0 : lookupNode
            (updateNode st p (fun pk => {pk with keys := removeEntry pk.keys k.name})) p
              = some {kp with keys := removeEntry kp.keys k.name} := by
          rw [lookupNode_detach, if_pos rfl, hkp]
          rfl
        have h4 := ih4 p {kp with keys := removeEntry kp.keys k.name} hkp0
        rw [hstep, h4, dirtyNamesFor_detach,
          dirtyNamesFor_cons_parent st rest i k p hk hp0]
        obtain ⟨knm, kpar, kks, kit, kfd⟩ := kp
        congr 1
        unfold filterKeys removeEntry
        simp only [KeyImp.mk.injEq, true_and, and_true]
        rw [List.filter_filter]
        apply List.filter_congr
        intro x _
        by_cases h1 : x.1 = k.name <;> by_cases h2 : x.1 ∈ dirtyNamesFor st rest p <;>
          simp [h1, h2]
      · have hkpu : lookupNode
            (updateNode st p0 (fun pk => {pk with keys := removeEntry pk.keys k.name})) p
              = some kp := by
          rw [lookupNode_detach, if_neg hpp]
          exact hkp
        have h4 := ih4 p kp hkpu
        rw [hstep, h4, dirtyNamesFor_detach,
          dirtyNamesFor_cons_other st rest i k p hk
            (fun he => hpp (Option.some.inj (hp0 ▸ he)).symm)]

/-- C9: targeted import invalidation.  On external success with a supplied
dirty list, `importreg` resolves `true` immediately (the scheduled re-reads
are issued, de-duplicated per parent, and not awaited), removes from each
parent's child map exactly the names of its dirty children (every other
node's record is untouched), and schedules exactly one `reread` per
distinct parent; on external failure it returns the state untouched with
`false` and schedules nothing. -/
theorem claim9_theorem :
    ∀ (st : Store) (v : Option String) (ds : List NodeId) (err : RegError),
      (∀ i ∈ ds, ∃ k, lookupNode st i = some k ∧ k.parent.isSome) →
      (importreg st v (some ds) (.ok ())).2.2 = true ∧
      (importreg st v (some ds) (.ok ())).2.1.Nodup ∧
      (∀ p, p ∈ (importreg st v (some ds) (.ok ())).2.1 ↔
        ∃ i ∈ ds, parentIdOf st i = some p) ∧
      (∀ m, (¬ ∃ i ∈ ds, parentIdOf st i = some m) →
        lookupNode (importreg st v (some ds) (.ok ())).1 m = lookupNode st m) ∧
      (∀ p kp, lookupNode st p = some kp →
        lookupNode (importreg st v (some ds) (.ok ())).1 p =
          some (filterKeys kp (dirtyNamesFor st ds p))) ∧
      importreg st v (some ds) (.error err) = (st, [], false) := by
  intro st v ds err hconn
  obtain ⟨h1, h2, h3, h4⟩ := detachLoop_spec ds st [] hconn List.nodup_nil
  have hun : importreg st v (some ds) (.ok ()) =
      ((detachLoop st [] ds).1, (detachLoop st [] ds).2, true) := rfl
  refine ⟨by rw [hun], by rw [hun]; exact h1, ?_, ?_, ?_, rfl⟩
  · intro p
    rw [hun]
    show p ∈ (detachLoop st [] ds).2 ↔ _
    rw [h2 p]
    simp
  · intro m hm
    rw [hun]
    exact h3 m hm
  · intro p kp hkp
    rw [hun]
    exact h4 p kp hkp

/-- Witness for C9: two dirty siblings under one parent plus a child of the
root — one scheduled reread per distinct parent, exact detachment. -/
theorem claim9_witness :
    (importreg ⟨[(0, ⟨"", none, [("H", 1)], none, false⟩),
        (1, ⟨"H", some 0, [("a", 2), ("b", 3)], none, false⟩),
        (2, ⟨"a", some 1, [], none, false⟩),
        (3, ⟨"b", some 1, [], none, false⟩)], 4, [], [("", 0)], 0, 0⟩
      none (some [2, 3]) (.ok ())).2.2 = true ∧
    (importreg ⟨[(0, ⟨"", none, [("H", 1)], none, false⟩),
        (1, ⟨"H", some 0, [("a", 2), ("b", 3)], none, false⟩),
        (2, ⟨"a", some 1, [], none, false⟩),
        (3, ⟨"b", some 1, [], none, false⟩)], 4, [], [("", 0)], 0, 0⟩
      none (some [2, 3]) (.ok ())).2.1.Nodup ∧
    lookupNode (importreg ⟨[(0, ⟨"", none, [("H", 1)], none, false⟩),
        (1, ⟨"H", some 0, [("a", 2), ("b", 3)], none, false⟩),
        (2, ⟨"a", some 1, [], none, false⟩),
        (3, ⟨"b", some 1, [], none, false⟩)], 4, [], [("", 0)], 0, 0⟩
      none (some [2, 3]) (.ok ())).1 1 =
      some (filterKeys ⟨"H", some 0, [("a", 2), ("b", 3)], none, false⟩
        (dirtyNamesFor ⟨[(0, ⟨"", none, [("H", 1)], none, false⟩),
            (1, ⟨"H", some 0, [("a", 2), ("b", 3)], none, false⟩),
            (2, ⟨"a", some 1, [], none, false⟩),
            (3, ⟨"b", some 1, [], none, false⟩)], 4, [], [("", 0)], 0, 0⟩
          [2, 3] 1)) := by
  have h := claim9_theorem ⟨[(0, ⟨"", none, [("H", 1)], none, false⟩),
      (1, ⟨"H", some 0, [("a", 2), ("b", 3)], none, false⟩),
      (2, ⟨"a", some 1, [], none, false⟩),
      (3, ⟨"b", some 1, [], none, false⟩)], 4, [], [("", 0)], 0, 0⟩
    none [2, 3] ⟨"x", 1⟩ (by decide)
  exact ⟨h.1, h.2.1, h.2.2.2.2.1 1 ⟨"H", some 0, [("a", 2), ("b", 3)], none, false⟩ rfl⟩

/-! ### Claim C6 -/

/-- C6: the claimed third validation step is unreachable.
`getRawKey("HKLM\a*b")` passes validation without any illegal-key error —
the segment `a*b` is not made of word characters and spaces, and the
spec-worded anchored check rejects it — because `KEY_PATTERN` is written
without anchors: an unanchored bare Kleene star matches the empty
substring of every input, so `KEY_PATTERN.test` accepts every string and
the `illegal key` throw is dead code. -/
theorem claim6_theorem :
    parseKeyPath "HKLM\\a*b".data none =
      .ok ([], "HKEY_LOCAL_MACHINE\\a*b".data) ∧
    segmentsOnly "\\a*b".data = false ∧
    (∀ cs : List Char, KEY_PATTERN_test cs = true) := by
  refine ⟨rfl, rfl, fun cs => ?_⟩
  simp [KEY_PATTERN_test]

/-! ### Claim C10: groundwork -/

theorem alookup_mem {κ α : Type} [DecidableEq κ] (l : List (κ × α)) (k : κ) (v : α)
    (h : alookup l k = some v) : (k, v) ∈ l := by
  induction l with
  | nil => simp [alookup] at h
  | cons e rest ih =>
    obtain ⟨k1, v1⟩ := e
    by_cases hk : k1 = k
    · subst hk
      rw [show alookup ((k1, v1) :: rest) k1 = some v1 from by simp [alookup]] at h
      rw [← Option.some.inj h]
      exact List.mem_cons_self _ _
    · have h2 : alookup rest k = some v := by
        simpa [alookup, hk] using h
      exact List.mem_cons_of_mem _ (ih h2)

theorem alookup_none_of_lt {α : Type} (l : List (Nat × α)) (bound k : Nat)
    (hb : ∀ e ∈ l, e.1 < bound) (hk : bound ≤ k) : alookup l k = none := by
  induction l with
  | nil => rfl
  | cons e rest ih =>
    obtain ⟨k1, v1⟩ := e
    have h1 : k1 < bound := hb (k1, v1) (List.mem_cons_self _ _)
    have hne : ¬ k1 = k := by omega
    rw [show alookup ((k1, v1) :: rest) k = alookup rest k from by simp [alookup, hne]]
    exact ih (fun e he => hb e (List.mem_cons_of_mem _ he))

theorem wfN_lt (st : Store) (h : nodesWFb st = true) :
    ∀ e ∈ st.nodes, e.1 < st.nextId := by
  intro e he
  simp only [nodesWFb, Bool.and_eq_true, List.all_eq_true] at h
  have h1 := h.1.1 e he
  simpa using h1

theorem wfN_parent (st : Store) (h : nodesWFb st = true) (i : NodeId) (k : KeyImp)
    (p : NodeId) (hik : alookup st.nodes i = some k) (hp : k.parent = some p) :
    p < i ∧ (alookup st.nodes p).isSome = true := by
  have hmem := alookup_mem st.nodes i k hik
  simp only [nodesWFb, Bool.and_eq_true, List.all_eq_true] at h
  have h2 := h.1.2 (i, k) hmem
  simp only [hp] at h2
  simpa using h2

theorem wfN_child (st : Store) (h : nodesWFb st = true) (i : NodeId) (k : KeyImp)
    (hik : alookup st.nodes i = some k) :
    ∀ en ∈ k.keys, ∃ ck, alookup st.nodes en.2 = some ck ∧ ck.parent = some i := by
  intro en hen
  have hmem := alookup_mem st.nodes i k hik
  simp only [nodesWFb, Bool.and_eq_true, List.all_eq_true] at h
  have h2 := h.2 (i, k) hmem
  have h3 := h2 en hen
  cases hc : alookup st.nodes en.2 with
  | none => rw [hc] at h3; simp at h3
  | some ck =>
    rw [hc] at h3
    simp at h3
    exact ⟨ck, rfl, h3⟩

theorem wfH_disj (st : Store) (h : hostsWFb st = true) :
    ∀ e32 ∈ st.hosts32, ∀ e64 ∈ st.hosts64, e32.2 ≠ e64.2 := by
  intro e32 h32 e64 h64
  simp only [hostsWFb, Bool.and_eq_true, List.all_eq_true] at h
  have h2 := h.1.1 e32 h32 e64 h64
  simpa using h2

theorem wfH_64 (st : Store) (h : hostsWFb st = true) :
    ∀ e ∈ st.hosts64, ∃ k, alookup st.nodes e.2 = some k ∧
      k.parent = none ∧ k.name = e.1 := by
  intro e he
  simp only [hostsWFb, Bool.and_eq_true, List.all_eq_true] at h
  have h2 := h.2 e he
  cases hc : alookup st.nodes e.2 with
  | none => rw [hc] at h2; simp at h2
  | some k =>
    rw [hc] at h2
    simp at h2
    exact ⟨k, rfl, h2.1, h2.2⟩

theorem wfH_32 (st : Store) (h : hostsWFb st = true) :
    ∀ e ∈ st.hosts32, ∃ k, alookup st.nodes e.2 = some k ∧
      k.parent = none ∧ k.name = e.1 := by
  intro e he
  simp only [hostsWFb, Bool.and_eq_true, List.all_eq_true] at h
  have h2 := h.1.2 e he
  cases hc : alookup st.nodes e.2 with
  | none => rw [hc] at h2; simp at h2
  | some k =>
    rw [hc] at h2
    simp at h2
    exact ⟨k, rfl, h2.1, h2.2⟩

theorem rootGo_fuel_invariant (st : Store) (hWF : nodesWFb st = true) :
    ∀ (n : NodeId) (f1 f2 : Nat), n < f1 → n < f2 →
      rootGo f1 st n = rootGo f2 st n := by
  intro n
  induction n using Nat.strong_induction_on with
  | _ n ih =>
    intro f1 f2 h1 h2
    cases f1 with
    | zero => exact absurd h1 (Nat.not_lt_zero n)
    | succ f1 =>
      cases f2 with
      | zero => exact absurd h2 (Nat.not_lt_zero n)
      | succ f2 =>
        simp only [rootGo]
        cases hn : lookupNode st n with
        | none => rfl
        | some k =>
          obtain ⟨nm, par, ks, it, fd⟩ := k
          cases par with
          | none => rfl
          | some p =>
            have hplt : p < n :=
              (wfN_parent st hWF n ⟨nm, some p, ks, it, fd⟩ p hn rfl).1
            show rootGo f1 st p = rootGo f2 st p
            have ha : p < f1 := Nat.lt_of_lt_of_le hplt (Nat.le_of_lt_succ h1)
            have hb : p < f2 := Nat.lt_of_lt_of_le hplt (Nat.le_of_lt_succ h2)
            exact ih p hplt f1 f2 ha hb

theorem rootOf_step (st : Store) (hWF : nodesWFb st = true) (n : NodeId) (k : KeyImp)
    (p : NodeId) (hn : lookupNode st n = some k) (hp : k.parent = some p) :
    rootOf st n = rootOf st p := by
  have hplt : p < n := (wfN_parent st hWF n k p hn hp).1
  show rootGo (n + 1) st n = rootGo (p + 1) st p
  cases n with
  | zero => exact absurd hplt (Nat.not_lt_zero p)
  | succ n0 =>
    rw [show rootGo (n0 + 1 + 1) st (n0 + 1) = rootGo (n0 + 1) st p from by
      simp [rootGo, hn, hp]]
    exact rootGo_fuel_invariant st hWF p (n0 + 1) (p + 1) hplt (Nat.lt_succ_self p)

theorem rootOf_root (st : Store) (n : NodeId) (k : KeyImp)
    (hn : lookupNode st n = some k) (hp : k.parent = none) : rootOf st n = n := by
  show rootGo (n + 1) st n = n
  simp [rootGo, hn, hp]

theorem rootGo_agree (st st' : Store) (hWF : nodesWFb st = true)
    (hagree : ∀ i ki, alookup st.nodes i = some ki →
      ∃ ki', alookup st'.nodes i = some ki' ∧ ki'.parent = ki.parent ∧
        ki'.name = ki.name) :
    ∀ (fuel : Nat) (n : NodeId), (alookup st.nodes n).isSome = true →
      rootGo fuel st' n = rootGo fuel st n := by
  intro fuel
  induction fuel with
  | zero => intro n _; rfl
  | succ fuel ih =>
    intro n hn
    obtain ⟨k, hk⟩ := Option.isSome_iff_exists.mp hn
    obtain ⟨k', hk', hp', -⟩ := hagree n k hk
    obtain ⟨nm', par', ks', it', fd'⟩ := k'
    obtain ⟨nm, par, ks, it, fd⟩ := k
    simp only [rootGo]
    rw [show lookupNode st' n = some ⟨nm', par', ks', it', fd'⟩ from hk',
      show lookupNode st n = some ⟨nm, par, ks, it, fd⟩ from hk]
    have hp2 : par' = par := hp'
    subst hp2
    cases par' with
    | none => rfl
    | some p =>
      show rootGo fuel st' p = rootGo fuel st p
      exact ih p (wfN_parent st hWF n ⟨nm, some p, ks, it, fd⟩ p hk rfl).2

theorem rootOf_agree (st st' : Store) (hWF : nodesWFb st = true)
    (hagree : ∀ i ki, alookup st.nodes i = some ki →
      ∃ ki', alookup st'.nodes i = some ki' ∧ ki'.parent = ki.parent ∧
        ki'.name = ki.name)
    (n : NodeId) (hn : (alookup st.nodes n).isSome = true) :
    rootOf st' n = rootOf st n :=
  rootGo_agree st st' hWF hagree (n + 1) n hn

theorem updEntries_eq_map {α : Type} (n : Nat) (f : α → α) (l : List (Nat × α)) :
    updEntries n f l = l.map (fun e => if e.1 = n then (e.1, f e.2) else e) := by
  induction l with
  | nil => rfl
  | cons e rest ih =>
    obtain ⟨k1, v1⟩ := e
    by_cases h : k1 = n <;> simp [updEntries, h, ih]

theorem parentOK_iff (st : Store) (e : NodeId × KeyImp) :
    ((match e.2.parent with
      | none => true
      | some p => decide (p < e.1) && (alookup st.nodes p).isSome) = true) ↔
    (∀ p, e.2.parent = some p → p < e.1 ∧ (alookup st.nodes p).isSome = true) := by
  cases hp : e.2.parent with
  | none => simp
  | some p0 => simp

theorem childOK_iff (st : Store) (e : NodeId × KeyImp) :
    (∀ en ∈ e.2.keys, (match alookup st.nodes en.2 with
      | some ck => decide (ck.parent = some e.1)
      | none => false) = true) ↔
    (∀ en ∈ e.2.keys, ∃ ck, alookup st.nodes en.2 = some ck ∧
      ck.parent = some e.1) := by
  constructor
  · intro h en hen
    have h2 := h en hen
    cases hc : alookup st.nodes en.2 with
    | none => rw [hc] at h2; simp at h2
    | some ck =>
      rw [hc] at h2
      simp at h2
      exact ⟨ck, rfl, h2⟩
  · intro h en hen
    obtain ⟨ck, hck, hpar⟩ := h en hen
    rw [hck]
    simp [hpar]

theorem nodesWFb_iff (st : Store) :
    nodesWFb st = true ↔
    (∀ e ∈ st.nodes, e.1 < st.nextId) ∧
    (∀ e ∈ st.nodes, ∀ p, e.2.parent = some p →
      p < e.1 ∧ (alookup st.nodes p).isSome = true) ∧
    (∀ e ∈ st.nodes, ∀ en ∈ e.2.keys, ∃ ck, alookup st.nodes en.2 = some ck ∧
      ck.parent = some e.1) := by
  simp only [nodesWFb, Bool.and_eq_true, List.all_eq_true]
  constructor
  · intro h
    refine ⟨fun e he => by simpa using h.1.1 e he,
      fun e he => (parentOK_iff st e).mp (h.1.2 e he),
      fun e he => (childOK_iff st e).mp (h.2 e he)⟩
  · intro h
    refine ⟨⟨fun e he => by simpa using h.1 e he,
      fun e he => (parentOK_iff st e).mpr (h.2.1 e he)⟩,
      fun e he => (childOK_iff st e).mpr (h.2.2 e he)⟩

theorem addChild_alookup (st : Store) (n : NodeId) (s : String) (k : KeyImp)
    (hn : alookup st.nodes n = some k) (hfresh : alookup st.nodes st.nextId = none)
    (hnne : ¬ n = st.nextId) (j : NodeId) :
    alookup (addChild st n s).1.nodes j =
      if j = n then some {k with keys := k.keys ++ [(s, st.nextId)]}
      else if j = st.nextId then some ⟨s, some n, [], none, false⟩
      else alookup st.nodes j := by
  show alookup (updEntries n (fun pk => {pk with keys := pk.keys ++ [(s, st.nextId)]})
      (st.nodes ++ [(st.nextId, ⟨s, some n, [], none, false⟩)])) j = _
  rw [alookup_updEntries]
  by_cases hj1 : j = n
  · subst hj1
    rw [if_pos rfl, if_pos rfl, alookup_append, hn]
    rfl
  · rw [if_neg hj1, if_neg hj1, alookup_append]
    by_cases hj2 : j = st.nextId
    · subst hj2
      rw [hfresh, if_pos rfl]
      show (if st.nextId = st.nextId then some (⟨s, some n, [], none, false⟩ : KeyImp)
        else none) = some ⟨s, some n, [], none, false⟩
      rw [if_pos rfl]
    · rw [if_neg hj2]
      cases hv : alookup st.nodes j with
      | some v => rfl
      | none =>
        have hj2s : ¬ st.nextId = j := fun h => hj2 h.symm
        show (if st.nextId = j then some _ else none) = none
        rw [if_neg hj2s]

theorem addChild_nextId (st : Store) (n : NodeId) (s : String) :
    (addChild st n s).1.nextId = st.nextId + 1 := rfl

theorem addChild_snd (st : Store) (n : NodeId) (s : String) :
    (addChild st n s).2 = st.nextId := rfl

theorem addChild_hosts32 (st : Store) (n : NodeId) (s : String) :
    (addChild st n s).1.hosts32 = st.hosts32 := rfl

theorem addChild_hosts64 (st : Store) (n : NodeId) (s : String) :
    (addChild st n s).1.hosts64 = st.hosts64 := rfl

theorem addChild_agree (st : Store) (n : NodeId) (s : String) (k : KeyImp)
    (hn : alookup st.nodes n = some k) (hfresh : alookup st.nodes st.nextId = none)
    (hnne : ¬ n = st.nextId) :
    ∀ i ki, alookup st.nodes i = some ki →
      ∃ ki', alookup (addChild st n s).1.nodes i = some ki' ∧
        ki'.parent = ki.parent ∧ ki'.name = ki.name := by
  intro i ki hi
  rw [addChild_alookup st n s k hn hfresh hnne i]
  by_cases hi1 : i = n
  · subst hi1
    rw [if_pos rfl]
    rw [hn] at hi
    have hkk : ki = k := (Option.some.inj hi).symm
    subst hkk
    exact ⟨_, rfl, rfl, rfl⟩
  · rw [if_neg hi1]
    by_cases hi2 : i = st.nextId
    · subst hi2
      rw [hfresh] at hi
      exact absurd hi (by simp)
    · rw [if_neg hi2]
      exact ⟨ki, hi, rfl, rfl⟩

theorem mem_addChild_nodes (st : Store) (n : NodeId) (s : String)
    (e' : NodeId × KeyImp) (he' : e' ∈ (addChild st n s).1.nodes) :
    ∃ e, (e ∈ st.nodes ∨ e = (st.nextId, ⟨s, some n, [], none, false⟩)) ∧
      e' = if e.1 = n then (e.1, {e.2 with keys := e.2.keys ++ [(s, st.nextId)]})
        else e := by
  have hsh : (addChild st n s).1.nodes =
      updEntries n (fun pk => {pk with keys := pk.keys ++ [(s, st.nextId)]})
        (st.nodes ++ [(st.nextId, ⟨s, some n, [], none, false⟩)]) := rfl
  rw [hsh, updEntries_eq_map] at he'
  obtain ⟨e, hemem, heq⟩ := List.mem_map.mp he'
  refine ⟨e, ?_, heq.symm⟩
  rcases List.mem_append.mp hemem with h | h
  · exact Or.inl h
  · exact Or.inr (List.mem_singleton.mp h)

theorem addChild_WF (st : Store) (n : NodeId) (s : String) (k : KeyImp)
    (hWF : nodesWFb st = true) (hn : alookup st.nodes n = some k) :
    nodesWFb (addChild st n s).1 = true := by
  obtain ⟨hlt, hpar, hch⟩ := (nodesWFb_iff st).mp hWF
  have hnlt : n < st.nextId := hlt (n, k) (alookup_mem st.nodes n k hn)
  have hnne : ¬ n = st.nextId := Nat.ne_of_lt hnlt
  have hfresh : alookup st.nodes st.nextId = none :=
    alookup_none_of_lt st.nodes st.nextId st.nextId hlt (Nat.le_refl _)
  have hAL := addChild_alookup st n s k hn hfresh hnne
  have hSome : ∀ p, (alookup st.nodes p).isSome = true →
      (alookup (addChild st n s).1.nodes p).isSome = true := by
    intro p hp
    rw [hAL p]
    by_cases h1 : p = n
    · rw [if_pos h1]; rfl
    · rw [if_neg h1]
      by_cases h2 : p = st.nextId
      · rw [if_pos h2]; rfl
      · rw [if_neg h2]; exact hp
  rw [nodesWFb_iff]
  refine ⟨?_, ?_, ?_⟩
  · intro e' he'
    obtain ⟨e, hsrc, heq⟩ := mem_addChild_nodes st n s e' he'
    have h1 : e'.1 = e.1 := by
      rw [heq]
      by_cases h : e.1 = n <;> simp [h]
    rw [h1, addChild_nextId]
    rcases hsrc with h | h
    · exact Nat.lt_succ_of_lt (hlt e h)
    · rw [h]
      exact Nat.lt_succ_self _
  · intro e' he' p hp
    obtain ⟨e, hsrc, heq⟩ := mem_addChild_nodes st n s e' he'
    have h1 : e'.1 = e.1 := by
      rw [heq]
      by_cases h : e.1 = n <;> simp [h]
    have h2 : e'.2.parent = e.2.parent := by
      rw [heq]
      by_cases h : e.1 = n <;> simp [h]
    rw [h2] at hp
    rw [h1]
    rcases hsrc with h | h
    · obtain ⟨ha, hb⟩ := hpar e h p hp
      exact ⟨ha, hSome p hb⟩
    · rw [h] at hp
      have hpn : p = n := by
        simpa using hp.symm
      subst hpn
      rw [h]
      refine ⟨hnlt, ?_⟩
      rw [hAL p, if_pos rfl]
      rfl
  · intro e' he' en hen
    obtain ⟨e, hsrc, heq⟩ := mem_addChild_nodes st n s e' he'
    have h1 : e'.1 = e.1 := by
      rw [heq]
      by_cases h : e.1 = n <;> simp [h]
    rcases hsrc with hold | hnew
    · by_cases hne : e.1 = n
      · rw [heq, if_pos hne] at hen
        simp only at hen
        rcases List.mem_append.mp hen with hen1 | hen2
        · obtain ⟨ck, hck, hckp⟩ := hch e hold en hen1
          by_cases hc1 : en.2 = n
          · refine ⟨{k with keys := k.keys ++ [(s, st.nextId)]}, ?_, ?_⟩
            · rw [hAL en.2, if_pos hc1]
            · show k.parent = some e'.1
              rw [hc1] at hck
              rw [hn] at hck
              have : ck = k := (Option.some.inj hck).symm
              rw [← this, h1]
              exact hckp
          · refine ⟨ck, ?_, ?_⟩
            · have hc2 : ¬ en.2 = st.nextId := by
                intro he2
                rw [he2, hfresh] at hck
                exact Option.noConfusion hck
              rw [hAL en.2, if_neg hc1, if_neg hc2]
              exact hck
            · rw [h1]
              exact hckp
        · have hen3 : en = (s, st.nextId) := List.mem_singleton.mp hen2
          refine ⟨⟨s, some n, [], none, false⟩, ?_, ?_⟩
          · rw [hen3]
            have hcne : ¬ st.nextId = n := fun h => hnne h.symm
            rw [hAL st.nextId, if_neg hcne, if_pos rfl]
          · show some n = some e'.1
            rw [h1, hne]
      · rw [heq, if_neg hne] at hen
        obtain ⟨ck, hck, hckp⟩ := hch e hold en hen
        by_cases hc1 : en.2 = n
        · refine ⟨{k with keys := k.keys ++ [(s, st.nextId)]}, ?_, ?_⟩
          · rw [hAL en.2, if_pos hc1]
          · show k.parent = some e'.1
            rw [hc1] at hck
            rw [hn] at hck
            have hckk : ck = k := (Option.some.inj hck).symm
            rw [← hckk, h1]
            exact hckp
        · refine ⟨ck, ?_, ?_⟩
          · have hc2 : ¬ en.2 = st.nextId := by
              intro he2
              rw [he2, hfresh] at hck
              exact Option.noConfusion hck
            rw [hAL en.2, if_neg hc1, if_neg hc2]
            exact hck
          · rw [h1]
            exact hckp
    · have hcne : ¬ st.nextId = n := fun h => hnne h.symm
      rw [heq, hnew] at hen
      simp only [if_neg hcne] at hen
      simp at hen

theorem subkey_cons_found (st : Store) (n : NodeId) (s : String) (rest : List String)
    (k : KeyImp) (c : NodeId) (hn : lookupNode st n = some k)
    (hc : alookup k.keys s = some c) :
    subkey st n (s :: rest) = subkey st c rest := by
  simp only [subkey, hn, hc]

theorem subkey_cons_new (st : Store) (n : NodeId) (s : String) (rest : List String)
    (k : KeyImp) (hn : lookupNode st n = some k) (hc : alookup k.keys s = none) :
    subkey st n (s :: rest) = subkey (addChild st n s).1 (addChild st n s).2 rest := by
  simp only [subkey, hn, hc]

theorem subkey_spec : ∀ (segs : List String) (st : Store) (n : NodeId),
    nodesWFb st = true → (alookup st.nodes n).isSome = true →
    nodesWFb (subkey st n segs).1 = true ∧
    (∀ i ki, alookup st.nodes i = some ki →
      ∃ ki', alookup (subkey st n segs).1.nodes i = some ki' ∧
        ki'.parent = ki.parent ∧ ki'.name = ki.name) ∧
    (subkey st n segs).1.hosts32 = st.hosts32 ∧
    (subkey st n segs).1.hosts64 = st.hosts64 ∧
    (alookup (subkey st n segs).1.nodes (subkey st n segs).2).isSome = true ∧
    rootOf (subkey st n segs).1 (subkey st n segs).2 = rootOf st n := by
  intro segs
  induction segs with
  | nil =>
    intro st n hN hn
    exact ⟨hN, fun i ki hi => ⟨ki, hi, rfl, rfl⟩, rfl, rfl, hn, rfl⟩
  | cons s rest ih =>
    intro st n hN hn
    obtain ⟨k, hk⟩ := Option.isSome_iff_exists.mp hn
    cases hc : alookup k.keys s with
    | some c =>
      have heq : subkey st n (s :: rest) = subkey st c rest :=
        subkey_cons_found st n s rest k c hk hc
      obtain ⟨ck, hck, hckp⟩ :=
        wfN_child st hN n k hk (s, c) (alookup_mem k.keys s c hc)
      have hcs : (alookup st.nodes c).isSome = true := by rw [hck]; rfl
      obtain ⟨hN2, hagree, h32, h64, hsome, hroot⟩ := ih st c hN hcs
      rw [heq]
      refine ⟨hN2, hagree, h32, h64, hsome, ?_⟩
      rw [hroot]
      exact rootOf_step st hN c ck n hck hckp
    | none =>
      have heq := subkey_cons_new st n s rest k hk hc
      have hnne : ¬ n = st.nextId :=
        Nat.ne_of_lt (wfN_lt st hN (n, k) (alookup_mem st.nodes n k hk))
      have hfresh : alookup st.nodes st.nextId = none :=
        alookup_none_of_lt st.nodes st.nextId st.nextId (wfN_lt st hN) (Nat.le_refl _)
      have hN1 : nodesWFb (addChild st n s).1 = true := addChild_WF st n s k hN hk
      have hAL := addChild_alookup st n s k hk hfresh hnne
      have hagree1 := addChild_agree st n s k hk hfresh hnne
      have hx : ¬ st.nextId = n := fun h => hnne h.symm
      have hchild : alookup (addChild st n s).1.nodes st.nextId =
          some ⟨s, some n, [], none, false⟩ := by
        rw [hAL st.nextId, if_neg hx, if_pos rfl]
      have hcsome : (alookup (addChild st n s).1.nodes (addChild st n s).2).isSome
          = true := by
        rw [addChild_snd, hchild]; rfl
      obtain ⟨hN2, hagree2, h32, h64, hsome, hroot⟩ :=
        ih (addChild st n s).1 (addChild st n s).2 hN1 hcsome
      rw [heq]
      refine ⟨hN2, ?_, ?_, ?_, hsome, ?_⟩
      · intro i ki hi
        obtain ⟨ki1, hki1, hp1, hm1⟩ := hagree1 i ki hi
        obtain ⟨ki2, hki2, hp2, hm2⟩ := hagree2 i ki1 hki1
        exact ⟨ki2, hki2, hp2.trans hp1, hm2.trans hm1⟩
      · rw [h32, addChild_hosts32]
      · rw [h64, addChild_hosts64]
      · rw [hroot]
        have hstep : rootOf (addChild st n s).1 (addChild st n s).2 =
            rootOf (addChild st n s).1 n := by
          rw [addChild_snd]
          exact rootOf_step (addChild st n s).1 hN1 st.nextId
            ⟨s, some n, [], none, false⟩ n hchild rfl
        rw [hstep]
        exact rootOf_agree st (addChild st n s).1 hN hagree1 n hn

theorem nodesWFb_appendRoot (st st2 : Store) (s : String)
    (hnodes : st2.nodes = st.nodes ++ [(st.nextId, ⟨s, none, [], none, false⟩)])
    (hnext : st2.nextId = st.nextId + 1) (hN : nodesWFb st = true) :
    nodesWFb st2 = true := by
  obtain ⟨hlt, hpar, hch⟩ := (nodesWFb_iff st).mp hN
  have halo : ∀ (p : NodeId) (v : KeyImp), alookup st.nodes p = some v →
      alookup st2.nodes p = some v := by
    intro p v hv
    rw [hnodes, alookup_append, hv]
  rw [nodesWFb_iff]
  refine ⟨?_, ?_, ?_⟩
  · intro e he
    rw [hnodes] at he
    rw [hnext]
    rcases List.mem_append.mp he with h | h
    · exact Nat.lt_succ_of_lt (hlt e h)
    · rw [List.mem_singleton.mp h]
      exact Nat.lt_succ_self _
  · intro e he p hp
    rw [hnodes] at he
    rcases List.mem_append.mp he with h | h
    · obtain ⟨ha, hb⟩ := hpar e h p hp
      obtain ⟨v, hv⟩ := Option.isSome_iff_exists.mp hb
      exact ⟨ha, by rw [halo p v hv]; rfl⟩
    · rw [List.mem_singleton.mp h] at hp
      exact absurd hp (by simp)
  · intro e he en hen
    rw [hnodes] at he
    rcases List.mem_append.mp he with h | h
    · obtain ⟨ck, hck, hckp⟩ := hch e h en hen
      exact ⟨ck, halo en.2 ck hck, hckp⟩
    · rw [List.mem_singleton.mp h] at hen
      simp at hen

theorem foundRoot_spec (st : Store) (nm : String) (r : NodeId) (segs : List String)
    (hN : nodesWFb st = true) (hH : hostsWFb st = true)
    (hr : alookup st.hosts64 nm = some r) :
    (subkey st r segs).1.hosts32 = st.hosts32 ∧
    getView (subkey st r segs).1 (subkey st r segs).2 = "64" := by
  have hrmem := alookup_mem st.hosts64 nm r hr
  obtain ⟨kr, hkr, hkrp, hkrn⟩ := wfH_64 st hH (nm, r) hrmem
  have hrsome : (alookup st.nodes r).isSome = true := by rw [hkr]; rfl
  obtain ⟨hN2, hagree, h32, h64, hsomeR, hroot⟩ := subkey_spec segs st r hN hrsome
  have hrootr : rootOf st r = r := rootOf_root st r kr hkr hkrp
  obtain ⟨kr', hkr', hkrp', hkrn'⟩ := hagree r kr hkr
  refine ⟨h32, ?_⟩
  have hlk : lookupNode (subkey st r segs).1 r = some kr' := hkr'
  have hnm : kr'.name = nm := by rw [hkrn', hkrn]
  have hne : ¬ alookup st.hosts32 nm = some r := by
    intro hcon
    exact (wfH_disj st hH (nm, r) (alookup_mem st.hosts32 nm r hcon) (nm, r) hrmem) rfl
  simp only [getView, hroot, hrootr, hlk]
  rw [h32, hnm, if_neg hne]

theorem freshRoot_spec (st st1 : Store) (nm : String) (segs : List String)
    (hN : nodesWFb st = true) (hH : hostsWFb st = true)
    (h1 : st1.nodes = st.nodes ++ [(st.nextId, ⟨nm, none, [], none, false⟩)])
    (h2 : st1.nextId = st.nextId + 1)
    (h3 : st1.hosts32 = st.hosts32) :
    (subkey st1 st.nextId segs).1.hosts32 = st.hosts32 ∧
    getView (subkey st1 st.nextId segs).1 (subkey st1 st.nextId segs).2 = "64" := by
  have hfresh : alookup st.nodes st.nextId = none :=
    alookup_none_of_lt st.nodes st.nextId st.nextId (wfN_lt st hN) (Nat.le_refl _)
  have hN1 : nodesWFb st1 = true := nodesWFb_appendRoot st st1 nm h1 h2 hN
  have hrootlk : alookup st1.nodes st.nextId = some ⟨nm, none, [], none, false⟩ := by
    rw [h1, alookup_append, hfresh]
    show (if st.nextId = st.nextId then some (⟨nm, none, [], none, false⟩ : KeyImp)
      else none) = _
    rw [if_pos rfl]
  have hsome1 : (alookup st1.nodes st.nextId).isSome = true := by rw [hrootlk]; rfl
  obtain ⟨hN2, hagree, h32, h64, hsomeR, hroot⟩ :=
    subkey_spec segs st1 st.nextId hN1 hsome1
  have hrootr : rootOf st1 st.nextId = st.nextId :=
    rootOf_root st1 st.nextId ⟨nm, none, [], none, false⟩ hrootlk rfl
  obtain ⟨kr', hkr', hkrp', hkrn'⟩ := hagree st.nextId ⟨nm, none, [], none, false⟩ hrootlk
  refine ⟨h32.trans h3, ?_⟩
  have hlk : lookupNode (subkey st1 st.nextId segs).1 st.nextId = some kr' := hkr'
  have hnm : kr'.name = nm := hkrn'
  have hne : ¬ alookup st.hosts32 nm = some st.nextId := by
    intro hcon
    obtain ⟨kq, hkq, -, -⟩ :=
      wfH_32 st hH (nm, st.nextId) (alookup_mem st.hosts32 nm st.nextId hcon)
    rw [hfresh] at hkq
    exact Option.noConfusion hkq
  simp only [getView, hroot, hrootr, hlk]
  rw [h32, h3, hnm, if_neg hne]

theorem getRawKey_none64 (st : Store) (key : String) (st' : Store) (m : NodeId)
    (hWF : Store.WF st) (h : getRawKey st key none = .ok (st', m)) :
    st'.hosts32 = st.hosts32 ∧ getView st' m = "64" := by
  obtain ⟨hN, hH⟩ := hWF
  cases hp : parseKeyPath key.data none with
  | error e =>
    simp only [getRawKey, hp] at h
    exact Except.noConfusion h
  | ok hk2 =>
    simp only [getRawKey, hp] at h
    rw [show (if (none : Option String) = some "32" then st.hosts32 else st.hosts64)
      = st.hosts64 from rfl] at h
    cases hr : alookup st.hosts64 (String.mk hk2.1) with
    | some r =>
      simp only [hr] at h
      have heq := Except.ok.inj h
      show (st', m).1.hosts32 = st.hosts32 ∧ getView (st', m).1 (st', m).2 = "64"
      rw [← heq]
      exact foundRoot_spec st (String.mk hk2.1) r
        ((splitChar '\\' hk2.2).map String.mk) hN hH hr
    | none =>
      simp only [hr] at h
      have heq := Except.ok.inj h
      show (st', m).1.hosts32 = st.hosts32 ∧ getView (st', m).1 (st', m).2 = "64"
      rw [← heq]
      exact freshRoot_spec st _ (String.mk hk2.1)
        ((splitChar '\\' hk2.2).map String.mk) hN hH rfl rfl rfl

/-- **C10.** The implicit default view is 64-bit: a `getRawKey` call with the
view argument omitted resolves (or creates) its root in the `hosts64`
partition — the 32-bit partition is left untouched and `getView` on the
resulting node reports `"64"` (given the store invariant) — and `importreg`'s
wholesale invalidation with no view empties exactly the 64-bit partition,
leaving every cached 32-bit root intact. -/
theorem claim10_theorem :
    (∀ (st : Store) (key : String) (st' : Store) (m : NodeId),
      Store.WF st → getRawKey st key none = .ok (st', m) →
      st'.hosts32 = st.hosts32 ∧ getView st' m = "64") ∧
    (∀ st : Store,
      importreg st none none (.ok ()) = ({st with hosts64 := []}, [], true)) :=
  ⟨fun st key st' m hWF h => getRawKey_none64 st key st' m hWF h, fun _ => rfl⟩

theorem claim10_witness :
    Store.WF ⟨[], 0, [], [], 0, 0⟩ ∧
    ((⟨[(0, ⟨"", none, [("HKEY_LOCAL_MACHINE", 1)], none, false⟩),
        (1, ⟨"HKEY_LOCAL_MACHINE", some 0, [], none, false⟩)],
       2, [], [("", 0)], 0, 0⟩ : Store).hosts32
        = (⟨[], 0, [], [], 0, 0⟩ : Store).hosts32 ∧
     getView ⟨[(0, ⟨"", none, [("HKEY_LOCAL_MACHINE", 1)], none, false⟩),
        (1, ⟨"HKEY_LOCAL_MACHINE", some 0, [], none, false⟩)],
       2, [], [("", 0)], 0, 0⟩ 1 = "64") :=
  ⟨⟨rfl, rfl⟩,
   claim10_theorem.1 ⟨[], 0, [], [], 0, 0⟩ "HKLM"
     ⟨[(0, ⟨"", none, [("HKEY_LOCAL_MACHINE", 1)], none, false⟩),
        (1, ⟨"HKEY_LOCAL_MACHINE", some 0, [], none, false⟩)],
       2, [], [("", 0)], 0, 0⟩ 1
     ⟨rfl, rfl⟩ rfl⟩

end Registry
